import Mathlib

/-!
Verification of the C-style macro preprocessor of the static site generator
(`static_site_generator_machine.py`).  The preprocessor is shallowly embedded:
text is `List Char`, the filesystem is an association list from paths to file
contents, exceptions are `Except`, and every recursion of the source that is
not structural carries an explicit fuel argument (the Python code recurses on
the include graph without a bound; fuel exhaustion is reported with the
artificial error `PError.outOfFuel`, which no real run of the source produces).
-/

namespace SSG

/-- Text, as a list of characters (Python `str`). -/
abbrev Str := List Char

/-- Convert a Lean string literal to the character-list representation. -/
def lit (s : String) : Str := s.toList

/-- Python `str.strip` / `\s` whitespace characters. -/
def pyWs (c : Char) : Bool :=
  c = ' ' || c = '\t' || c = '\n' || c = '\r' || c = '\x0b' || c = '\x0c'

/-- A character of the regex class `\w` (ASCII reading). -/
def isWordChar (c : Char) : Bool := c.isAlphanum || c = '_'

/-- Python `str.lstrip()`. -/
def pyLstrip (s : Str) : Str := s.dropWhile pyWs

/-- Python `str.rstrip()`. -/
def pyRstrip (s : Str) : Str := ((s.reverse).dropWhile pyWs).reverse

/-- Python `str.strip()`. -/
def pyStrip (s : Str) : Str := pyRstrip (pyLstrip s)

/-- Python `str.split(c)` for a single-character separator: always returns at
least one (possibly empty) piece. -/
def splitOnChar (c : Char) : Str → List Str
  | [] => [[]]
  | a :: rest =>
    match splitOnChar c rest with
    | [] => [[]]
    | h :: t => if a = c then [] :: h :: t else (a :: h) :: t

/-- Python `sep.join(pieces)`. -/
def joinWith (sep : Str) : List Str → Str
  | [] => []
  | [x] => x
  | x :: xs => x ++ sep ++ joinWith sep xs

/-- Net parenthesis count of a line, as accumulated by the `for char in line`
loop of `collect_macro_body`. -/
def parenDelta (s : Str) : Int :=
  s.foldl (fun acc c => if c = '(' then acc + 1 else if c = ')' then acc - 1 else acc) 0

/-- The text strictly before the last occurrence of `c` (Python
`s[:s.rindex(c)]`); `[]` when `c` does not occur. -/
def dropAfterLast (c : Char) (s : Str) : Str :=
  ((s.reverse.dropWhile (fun a => a ≠ c)).drop 1).reverse

/-- Errors raised by the preprocessor.  The source has a single exception
class with formatted messages; the constructors here record the data of each
`raise` site, and `renderError` reproduces the message text.
`outOfFuel` is an artifact of the explicit fuel and corresponds to no source
error. -/
inductive PError where
  | circularInclude (stack : List Str) (offending : Str)
  | unmatchedParens
  | arityMismatch (name : Str) (expected got : Nat) (file : Str) (line : Nat)
  | strayElse
  | strayEndif
  | ioError (path : Str)
  -- any exception raised while compiling a `re.sub` replacement template
  -- (`re.error` "bad escape" / "invalid group reference" / octal out of
  -- range / `IndexError` "unknown group name"), which all abort expansion
  | badReplTemplate
  | outOfFuel
  deriving DecidableEq

/-- Token payloads (`TokenType` plus the `value` field of the source, where a
`DEFINE` token's value is the `(name, params, body)` triple). -/
inductive Tok where
  | incl (path : Str)
  | define (name : Str) (params : List Str) (body : Str)
  | ifdef (sym : Str)
  | ifndef (sym : Str)
  | els
  | endif
  | undef (sym : Str)
  | text (s : Str)
  deriving DecidableEq

/-- A token with its 1-based line number and originating file. -/
structure Token where
  tok : Tok
  line_number : Nat
  file : Str
  deriving DecidableEq

/-- The `Macro` dataclass. -/
structure Macro where
  name : Str
  params : List Str
  body : Str
  file : Str
  line : Nat
  deriving DecidableEq

/-- The mutable state of a `Preprocessor` instance.  `macros` models the
insertion-ordered Python dict, `defined_symbols` the set (as a duplicate-free
membership list), and the two stacks keep Python's orientation: the top is the
last element (`append` / `pop()` / `[-1]`). -/
structure Preprocessor where
  include_stack : List Str
  macros : List (Str × Macro)
  defined_symbols : List Str
  conditional_stack : List Bool
  deriving DecidableEq

/-- `dict[k]` lookup. -/
def dictLookup (tbl : List (Str × Macro)) (k : Str) : Option Macro :=
  match tbl with
  | [] => none
  | (k2, v) :: rest => if k2 = k then some v else dictLookup rest k

/-- `dict[k] = v`: replaces in place when the key exists (Python dicts keep the
original insertion position), appends otherwise. -/
def dictInsert (tbl : List (Str × Macro)) (k : Str) (v : Macro) : List (Str × Macro) :=
  match tbl with
  | [] => [(k, v)]
  | (k2, v2) :: rest => if k2 = k then (k, v) :: rest else (k2, v2) :: dictInsert rest k v

/-- `del dict[k]` (the source guards the `del` with a membership test, so
erasing an absent key is a no-op here as there). -/
def dictErase (tbl : List (Str × Macro)) (k : Str) : List (Str × Macro) :=
  match tbl with
  | [] => []
  | (k2, v2) :: rest => if k2 = k then rest else (k2, v2) :: dictErase rest k

/-- `set.add`. -/
def setAdd (s : List Str) (x : Str) : List Str := if x ∈ s then s else s ++ [x]

/-- `set.discard`. -/
def setRemove (s : List Str) (x : Str) : List Str := s.filter (fun y => y ≠ x)

/-- The filesystem a run sees: association list from paths to file contents. -/
abbrev FS := List (Str × Str)

/-- Reading a file; `none` models `open` raising `IOError`. -/
def fsRead (fs : FS) (p : Str) : Option Str :=
  match fs with
  | [] => none
  | (q, c) :: rest => if q = p then some c else fsRead rest p

/-! ### Path arithmetic (`os.path` on POSIX) -/

/-- `p.rfind('/') + 1`, i.e. 0 when there is no slash. -/
def lastSlashSucc (p : Str) : Nat :=
  p.length - (p.reverse.takeWhile (fun c => c ≠ '/')).length

/-- `posixpath.dirname`. -/
def pyDirname (p : Str) : Str :=
  let head := p.take (lastSlashSucc p)
  if head ≠ [] ∧ ¬ (head.all (fun c => c = '/')) then
    (head.reverse.dropWhile (fun c => c = '/')).reverse
  else head

/-- `posixpath.join` for two components. -/
def pyJoin (a b : Str) : Str :=
  if b.head? = some '/' then b
  else if a = [] ∨ a.getLast? = some '/' then a ++ b
  else a ++ '/' :: b

/-- `posixpath.normpath`. -/
def normpath (p : Str) : Str :=
  if p = [] then ['.']
  else
    let initialSlashes : Nat :=
      if (lit "//").isPrefixOf p ∧ ¬ (lit "///").isPrefixOf p then 2
      else if p.head? = some '/' then 1 else 0
    let comps := splitOnChar '/' p
    let newComps := comps.foldl (fun acc comp =>
      if comp = [] ∨ comp = ['.'] then acc
      else if comp ≠ lit ".." ∨ (initialSlashes = 0 ∧ acc = []) ∨ acc.getLast? = some (lit "..") then
        acc ++ [comp]
      else if acc ≠ [] then acc.dropLast
      else acc) []
    let path2 := (List.replicate initialSlashes '/') ++ joinWith ['/'] newComps
    if path2 = [] then ['.'] else path2

/-- `os.path.normpath(os.path.join(os.path.dirname(token.file), token.value))`,
the include-path resolution of `process_include_macros` / `process_include`. -/
def resolveIncludePath (fromFile target : Str) : Str :=
  normpath (pyJoin (pyDirname fromFile) target)

/-! ### `collect_macro_body` -/

/-- The line-collection loop of `collect_macro_body`, over the suffix of the
line list starting at the loop's start index.  Returns the collected (rstripped)
body lines together with the index, relative to that suffix, of the line on
which the loop stopped -- equal to the number of remaining lines when the loop
exhausts them, exactly as the source's `i` ends at `len(lines)` in that case. -/
def collect_macro_body_aux (count : Int) : List Str → Except PError (List Str × Nat)
  | [] => .ok ([], 0)
  | l :: rest =>
    let line := pyRstrip l
    let c2 := count + parenDelta line
    if c2 > 0 then
      match collect_macro_body_aux c2 rest with
      | .ok (body, r) => .ok (line :: body, r + 1)
      | .error e => .error e
    else if c2 = 0 ∧ line.contains ')' then
      .ok ([dropAfterLast ')' line], 0)
    else
      .error .unmatchedParens

/-- `collect_macro_body(lines, start_idx)`, taking the suffix
`lines[start_idx:]` directly.  The source's two call sites pass
`(lines, i)` and `(lines[i:], 0)` and afterwards resume at the returned index
plus one; both are the returned relative index here plus one from the suffix
start. -/
def collect_macro_body (lines : List Str) : Except PError (Str × Nat) :=
  match collect_macro_body_aux 0 lines with
  | .ok (body, r) => .ok (joinWith ['\n'] body, r)
  | .error e => .error e

/-! ### The lexer's regular expressions

Each `re.match` of `tokenize` is modeled by a function computing the result of
Python's leftmost, greedy-with-backtracking matching on the concrete pattern.
-/

/-- `re.match(r'#include\s*[<"](.+)[>"]', line)`, returning group 1.  After the
literal prefix and the greedy whitespace run, a `<` or `"` must follow; the
greedy `(.+)` then ends at the last position whose character is `>` or `"`,
provided at least one character is captured. -/
def closeBracketIdx (s : Str) : Option Nat :=
  (List.range s.length).foldl
    (fun acc i =>
      match s.get? i with
      | some c => if c = '>' || c = '"' then some i else acc
      | none => acc)
    none

def matchInclude (line : Str) : Option Str :=
  if (lit "#include").isPrefixOf line then
    let rest := line.drop 8
    match rest.dropWhile pyWs with
    | [] => none
    | q :: r3 =>
      if q = '<' || q = '"' then
        match closeBracketIdx r3 with
        | some j => if 1 ≤ j then some (r3.take j) else none
        | none => none
      else none
  else none

/-- A character of the parameter-list class `[\w\s,]`. -/
def isParamChar (c : Char) : Bool := isWordChar c || pyWs c || c = ','

/-- `re.match(r'#define\s+(\w+)(?:\(([\w\s,]*)\))?\s*\(', line)`, returning the
name and, when present, the raw parameter-group text.  The optional group is
attempted greedily; when it is not immediately followed (after `\s*`) by the
body-opening `(`, the regex backtracks to the group-free reading. -/
def matchDefine (line : Str) : Option (Str × Option Str) :=
  if (lit "#define").isPrefixOf line then
    let rest := line.drop 7
    if rest.takeWhile pyWs = [] then none
    else
      let r2 := rest.dropWhile pyWs
      let name := r2.takeWhile isWordChar
      if name = [] then none
      else
        let r3 := r2.dropWhile isWordChar
        let noGroup : Option (Str × Option Str) :=
          if (r3.dropWhile pyWs).head? = some '(' then some (name, none) else none
        match r3 with
        | '(' :: r4 =>
          match r4.dropWhile isParamChar with
          | ')' :: r6 =>
            if (r6.dropWhile pyWs).head? = some '(' then
              some (name, some (r4.takeWhile isParamChar))
            else noGroup
          | _ => noGroup
        | _ => noGroup
  else none

/-- `re.match(kw + r'\s+(\w+)', line)` for `#ifdef` / `#ifndef` / `#undef`,
returning group 1. -/
def matchDirectiveName (kw : String) (line : Str) : Option Str :=
  if (lit kw).isPrefixOf line then
    let rest := line.drop (lit kw).length
    if rest.takeWhile pyWs = [] then none
    else
      let name := (rest.dropWhile pyWs).takeWhile isWordChar
      if name = [] then none else some name
  else none

/-- `re.match(r'(\w+)\s*\(', line)`: the multi-line macro-call trigger. -/
def matchCallStart (line : Str) : Option Str :=
  let name := line.takeWhile isWordChar
  if name = [] then none
  else if ((line.dropWhile isWordChar).dropWhile pyWs).head? = some '(' then some name
  else none

/-! ### `tokenize` -/

/-- The parameter list built from the optional group text:
`[p.strip() for p in params.split(',')] if params else []`. -/
def paramsOfGroup (g : Option Str) : List Str :=
  match g with
  | none => []
  | some s => if s = [] then [] else (splitOnChar ',' s).map pyStrip

/-- Prepend a token to the result of the remaining scan. -/
def consTok (t : Token) : Except PError (List Token) → Except PError (List Token)
  | .ok ts => .ok (t :: ts)
  | .error e => .error e

/-- The line-scanning loop of `tokenize`.  `i` is the current index into
`lines`.  Every iteration advances `i` by at least one, so the fuel (which only
bounds the number of iterations; `tokenize` passes `lines.length`) never runs
out on the fuel `tokenize` supplies.  A line whose stripped form starts with
`#define` but fails the define regex falls through to the later branches,
exactly as in the source (the other directive branches consume their line even
when their regex fails, producing no token). -/
def tokenize_aux (table : List (Str × Macro)) (filename : Str) (lines : List Str) :
    Nat → Nat → Except PError (List Token)
  | 0, i => if i < lines.length then .error .outOfFuel else .ok []
  | fuel + 1, i =>
    match lines.drop i with
    | [] => .ok []
    | raw :: _ =>
      let line := pyStrip raw
      if line = [] then tokenize_aux table filename lines fuel (i + 1)
      else if (lit "#include").isPrefixOf line then
        match matchInclude line with
        | some v => consTok ⟨.incl v, i + 1, filename⟩ (tokenize_aux table filename lines fuel (i + 1))
        | none => tokenize_aux table filename lines fuel (i + 1)
      else
        match matchDefine line with
        | some (name, g) =>
          match collect_macro_body (lines.drop i) with
          | .error e => .error e
          | .ok (body, r) =>
            consTok ⟨.define name (paramsOfGroup g) body, i + 1, filename⟩
              (tokenize_aux table filename lines fuel (i + r + 1))
        | none =>
          if (lit "#ifdef").isPrefixOf line then
            match matchDirectiveName "#ifdef" line with
            | some nm =>
              consTok ⟨.ifdef nm, i + 1, filename⟩ (tokenize_aux table filename lines fuel (i + 1))
            | none => tokenize_aux table filename lines fuel (i + 1)
          else if (lit "#ifndef").isPrefixOf line then
            match matchDirectiveName "#ifndef" line with
            | some nm =>
              consTok ⟨.ifndef nm, i + 1, filename⟩ (tokenize_aux table filename lines fuel (i + 1))
            | none => tokenize_aux table filename lines fuel (i + 1)
          else if (lit "#else").isPrefixOf line then
            consTok ⟨.els, i + 1, filename⟩ (tokenize_aux table filename lines fuel (i + 1))
          else if (lit "#endif").isPrefixOf line then
            consTok ⟨.endif, i + 1, filename⟩ (tokenize_aux table filename lines fuel (i + 1))
          else if (lit "#undef").isPrefixOf line then
            match matchDirectiveName "#undef" line with
            | some nm =>
              consTok ⟨.undef nm, i + 1, filename⟩ (tokenize_aux table filename lines fuel (i + 1))
            | none => tokenize_aux table filename lines fuel (i + 1)
          else if line.contains '(' then
            match matchCallStart line with
            | some w =>
              if (dictLookup table w).isSome then
                match collect_macro_body (lines.drop i) with
                | .error e => .error e
                | .ok (body, r) =>
                  consTok ⟨.text (w ++ '(' :: body ++ [')']), i + 1, filename⟩
                    (tokenize_aux table filename lines fuel (i + r + 1))
              else
                consTok ⟨.text line, i + 1, filename⟩ (tokenize_aux table filename lines fuel (i + 1))
            | none =>
              consTok ⟨.text line, i + 1, filename⟩ (tokenize_aux table filename lines fuel (i + 1))
          else
            consTok ⟨.text line, i + 1, filename⟩ (tokenize_aux table filename lines fuel (i + 1))

/-- `tokenize(content, filename)` under the macro table the lexer consults for
multi-line macro-call harvesting. -/
def tokenize (table : List (Str × Macro)) (content : Str) (filename : Str) :
    Except PError (List Token) :=
  let lines := splitOnChar '\n' content
  tokenize_aux table filename lines lines.length 0

/-! ### `parse_macro_args` -/

/-- The running state of the argument-splitting loop:
`(args, current_arg, paren_count)`. -/
structure PmaState where
  args : List Str
  current : Str
  depth : Int

/-- One character step of the splitting loop of `parse_macro_args`. -/
def pmaStep (st : PmaState) (c : Char) : PmaState :=
  if c = '(' then { st with depth := st.depth + 1, current := st.current ++ [c] }
  else if c = ')' then { st with depth := st.depth - 1, current := st.current ++ [c] }
  else if c = ',' ∧ st.depth = 0 then
    if st.current ≠ [] then { st with args := st.args ++ [pyStrip st.current], current := [] }
    else st
  else { st with current := st.current ++ [c] }

/-- `parse_macro_args(args_text)`: the text is split on newlines, each line is
stripped and fed character by character through `pmaStep`; a final nonempty
`current_arg` is appended, and the result list comprehension keeps the stripped
form of every argument whose stripped form is nonempty. -/
def parse_macro_args (args_text : Str) : List Str :=
  let lines := splitOnChar '\n' args_text
  let st := lines.foldl (fun st l => (pyStrip l).foldl pmaStep st) ⟨[], [], 0⟩
  let args := if st.current ≠ [] then st.args ++ [pyStrip st.current] else st.args
  (args.map pyStrip).filter (fun a => a ≠ [])

/-! ### `expand_macro` -/

/-- Replace every occurrence of `pat` in `s` by `rep`, left to right and
non-overlapping: `re.sub` with the literal (escaped) pattern
`r'\{param\}'`.  The fuel is adequate whenever it is at least `s.length` and
`pat` is nonempty (every call site passes a brace-wrapped, hence nonempty,
pattern); `replaceAll` supplies it. -/
def replaceAllF (pat rep : Str) : Nat → Str → Str
  | 0, s => s
  | _ + 1, [] => []
  | fuel + 1, c :: cs =>
    if pat ≠ [] ∧ pat.isPrefixOf (c :: cs) then
      rep ++ replaceAllF pat rep fuel ((c :: cs).drop pat.length)
    else c :: replaceAllF pat rep fuel cs

def replaceAll (pat rep s : Str) : Str := replaceAllF pat rep s.length s

/-- The literal placeholder pattern of a parameter: `re.escape` makes the
pattern `r'\{param\}'` literal. -/
def bracePat (p : Str) : Str := '{' :: p ++ ['}']

/-- The replacement-template escape table `ESCAPES` of Python's `sre_parse`:
`\a \b \f \n \r \t \v \\` stand for the corresponding control characters (and
the backslash itself). -/
def replEscape (c : Char) : Option Char :=
  if c = 'a' then some (Char.ofNat 7)
  else if c = 'b' then some (Char.ofNat 8)
  else if c = 'f' then some (Char.ofNat 12)
  else if c = 'n' then some '\n'
  else if c = 'r' then some '\r'
  else if c = 't' then some '\t'
  else if c = 'v' then some (Char.ofNat 11)
  else if c = '\\' then some '\\'
  else none

/-- An ASCII letter (`ASCIILETTERS` of `sre_parse`). -/
def isAsciiLetter (c : Char) : Bool :=
  ('a' ≤ c && c ≤ 'z') || ('A' ≤ c && c ≤ 'Z')

/-- An ASCII decimal digit. -/
def isAsciiDigit (c : Char) : Bool := '0' ≤ c && c ≤ '9'

/-- An ASCII octal digit. -/
def isOctDigit (c : Char) : Bool := '0' ≤ c && c ≤ '7'

def digitVal (c : Char) : Nat := c.toNat - '0'.toNat

/-- No two adjacent underscores (part of the digit-grouping grammar of
Python's `int()`). -/
def noAdjUnderscore : Str → Bool
  | c :: d :: rest => !(c = '_' && d = '_') && noAdjUnderscore (d :: rest)
  | _ => true

/-- Does `int(name)` succeed with value `0`?  `int` strips surrounding
whitespace, allows one leading sign and single underscores between digits;
the value is zero exactly when every digit is `0`.  In a replacement template
`\g<name>`, this is the one name that denotes group 0 of the zero-capture-group
pattern `r'\{param\}'`; every other name raises (unknown group name, bad
character in group name, or a reference to a nonexistent group). -/
def pyIntIsZero (name : Str) : Bool :=
  let t := pyStrip name
  let t2 := match t with
    | c :: rest => if c = '+' || c = '-' then rest else t
    | [] => t
  !t2.isEmpty && t2.all (fun c => c = '0' || c = '_') &&
    !(t2.head? == some '_') && !(t2.getLast? == some '_') && noAdjUnderscore t2

/-- `parse_template` of `sre_parse`, specialised to a pattern with no capture
groups whose every match is the constant text `g0` (true of the literal
pattern `r'\{param\}'` built by `expand_macro`, whose group 0 always matches
`{param}` itself).  The replacement string is processed before matching:
known escapes become control characters, `\0` with up to two octal digits and
three-digit octal escapes become characters (failing above `0o377`), `\g<0>`
becomes the whole match, unknown escapes of ASCII letters, a trailing
backslash, malformed `\g<...>` and references to groups `1..` fail (even when
the pattern never matches), and a backslash before any other character is
kept literally.  Fuel is adequate from the template's length on; each step
consumes at least one character. -/
def templSteps (g0 : Str) : Nat → Str → Except PError Str
  | _, [] => .ok []
  | 0, _ :: _ => .error .outOfFuel
  | fuel + 1, c :: cs =>
    if c = '\\' then
      match cs with
      | [] => .error .badReplTemplate
      | d :: ds =>
        if d = 'g' then
          match ds with
          | '<' :: es =>
            match es.dropWhile (fun x => !(x == '>')) with
            | [] => .error .badReplTemplate
            | _ :: rest2 =>
              let name := es.takeWhile (fun x => !(x == '>'))
              if name.isEmpty then .error .badReplTemplate
              else if pyIntIsZero name then
                match templSteps g0 fuel rest2 with
                | .ok t => .ok (g0 ++ t)
                | .error e2 => .error e2
              else .error .badReplTemplate
          | _ => .error .badReplTemplate
        else if d = '0' then
          match ds with
          | e :: es =>
            if isOctDigit e then
              match es with
              | f :: fs =>
                if isOctDigit f then
                  match templSteps g0 fuel fs with
                  | .ok t => .ok (Char.ofNat (digitVal e * 8 + digitVal f) :: t)
                  | .error e2 => .error e2
                else
                  match templSteps g0 fuel (f :: fs) with
                  | .ok t => .ok (Char.ofNat (digitVal e) :: t)
                  | .error e2 => .error e2
              | [] => .ok [Char.ofNat (digitVal e)]
            else
              match templSteps g0 fuel ds with
              | .ok t => .ok (Char.ofNat 0 :: t)
              | .error e2 => .error e2
          | [] => .ok [Char.ofNat 0]
        else if isAsciiDigit d then
          match ds with
          | e :: es =>
            if isAsciiDigit e then
              match es with
              | f :: fs =>
                if isOctDigit d && isOctDigit e && isOctDigit f then
                  if digitVal d * 64 + digitVal e * 8 + digitVal f > 255 then
                    .error .badReplTemplate
                  else
                    match templSteps g0 fuel fs with
                    | .ok t => .ok (Char.ofNat (digitVal d * 64 + digitVal e * 8 + digitVal f) :: t)
                    | .error e2 => .error e2
                else .error .badReplTemplate
              | [] => .error .badReplTemplate
            else .error .badReplTemplate
          | [] => .error .badReplTemplate
        else
          match replEscape d with
          | some ch =>
            match templSteps g0 fuel ds with
            | .ok t => .ok (ch :: t)
            | .error e2 => .error e2
          | none =>
            if isAsciiLetter d then .error .badReplTemplate
            else
              match templSteps g0 fuel ds with
              | .ok t => .ok ('\\' :: d :: t)
              | .error e2 => .error e2
    else
      match templSteps g0 fuel cs with
      | .ok t => .ok (c :: t)
      | .error e2 => .error e2

def parseTempl (g0 repl : Str) : Except PError Str := templSteps g0 repl.length repl

/-- `re.sub(r'\{param\}', arg, result)`: the replacement string is processed
as a template before any matching, so a bad escape fails even with zero
matches; a valid template expands to one fixed string (group 0 always matches
the constant text `{param}`), which then replaces every occurrence of the
placeholder, left to right without rescanning insertions. -/
def pySubst (p arg body : Str) : Except PError Str :=
  match parseTempl (bracePat p) arg with
  | .error e => .error e
  | .ok rep => .ok (replaceAll (bracePat p) rep body)

/-- `expand_macro(macro, args)`: arity check, then one `re.sub` per parameter
in order, each rewriting the result of the previous one. -/
def expand_macro (mac : Macro) (args : List Str) : Except PError Str :=
  if args.length ≠ mac.params.length then
    .error (.arityMismatch mac.name mac.params.length args.length mac.file mac.line)
  else
    (mac.params.zip args).foldlM
      (fun result pa => pySubst pa.1 pa.2 result) mac.body

/-! ### `process_text` and the macro-call regex

`re.search(rf'NAME\s*\(((?:[^()]*|\([^()]*\))*)\)', line)`: the engine tries
every start position left to right; at a start position the literal name, a
whitespace run and `(` must follow, after which the greedy inner group consumes
runs of non-parenthesis characters and single-level `(...)` groups until the
first unconsumable top-level `)`, which closes the match (no other `)` is
reachable by backtracking).
-/

/-- Scan after the opening `(`: returns the text of group 1 and the rest of the
line after the closing `)`, or `none` when no match is possible from here.
Fuel is adequate from `s.length` on; each step consumes at least one
character. -/
def innerScanF : Nat → Str → Option (Str × Str)
  | 0, _ => none
  | _ + 1, [] => none
  | fuel + 1, c :: rest =>
    if c = ')' then some ([], rest)
    else if c = '(' then
      let mid := rest.takeWhile (fun a => a ≠ '(' ∧ a ≠ ')')
      match rest.dropWhile (fun a => a ≠ '(' ∧ a ≠ ')') with
      | ')' :: r2 =>
        match innerScanF fuel r2 with
        | some (inn, rst) => some ('(' :: mid ++ ')' :: inn, rst)
        | none => none
      | _ => none
    else
      match innerScanF fuel rest with
      | some (inn, rst) => some (c :: inn, rst)
      | none => none

/-- Attempt the call regex anchored at the start of `s`: on success returns
`(group 1, text after the match)`. -/
def findCallAt (name : Str) (s : Str) : Option (Str × Str) :=
  if name.isPrefixOf s then
    let r2 := (s.drop name.length).dropWhile pyWs
    if r2.head? = some '(' then innerScanF (r2.drop 1).length (r2.drop 1) else none
  else none

/-- `re.search` of the call regex: first matching start position, returning
`(text before the match, group 1, text after the match)`. -/
def findMacroCall (name : Str) : Str → Option (Str × Str × Str)
  | [] =>
    match findCallAt name [] with
    | some (inn, rst) => some ([], inn, rst)
    | none => none
  | c :: cs =>
    match findCallAt name (c :: cs) with
    | some (inn, rst) => some ([], inn, rst)
    | none =>
      match findMacroCall name cs with
      | some (pre, inn, rst) => some (c :: pre, inn, rst)
      | none => none

/-- `process_text(token)`: one search-and-splice per macro of the table, in
dict (insertion) order, each on the line as rewritten so far. -/
def process_text (macros : List (Str × Macro)) (line0 : Str) : Except PError Str :=
  macros.foldlM
    (fun line pair =>
      match findMacroCall pair.1 line with
      | none => .ok line
      | some (pre, inn, rst) =>
        match expand_macro pair.2 (parse_macro_args inn) with
        | .ok expansion => .ok (pre ++ expansion ++ rst)
        | .error e => .error e)
    line0

/-! ### Conditional stack and the two passes -/

/-- `handle_conditional_directive`. -/
def handle_conditional_directive (st : Preprocessor) (t : Token) : Except PError Preprocessor :=
  match t.tok with
  | .ifdef s =>
    .ok { st with conditional_stack :=
      st.conditional_stack ++ [decide (s ∈ st.defined_symbols)] }
  | .ifndef s =>
    .ok { st with conditional_stack :=
      st.conditional_stack ++ [!decide (s ∈ st.defined_symbols)] }
  | .els =>
    match st.conditional_stack.getLast? with
    | none => .error .strayElse
    | some b => .ok { st with conditional_stack := st.conditional_stack.dropLast ++ [!b] }
  | .endif =>
    match st.conditional_stack.getLast? with
    | none => .error .strayEndif
    | some _ => .ok { st with conditional_stack := st.conditional_stack.dropLast }
  | _ => .ok st

/-- Pass 1, `collect_macros` together with `process_include_macros`: records
every `Define`, recurses through every `Include` (with the cycle check against
the include stack), and ignores everything else.  The fuel decreases on every
step; any terminating run of the source is reproduced by a large enough
fuel. -/
def collect_macros (fs : FS) : Nat → Preprocessor → List Token → Except PError Preprocessor
  | _, st, [] => .ok st
  | 0, _, _ :: _ => .error .outOfFuel
  | fuel + 1, st, t :: rest =>
    match t.tok with
    | .define name params body =>
      collect_macros fs fuel
        { st with
          macros := dictInsert st.macros name ⟨name, params, body, t.file, t.line_number⟩,
          defined_symbols := setAdd st.defined_symbols name }
        rest
    | .incl v =>
      let p := resolveIncludePath t.file v
      if p ∈ st.include_stack then .error (.circularInclude st.include_stack p)
      else
        let st1 := { st with include_stack := st.include_stack ++ [p] }
        match fsRead fs p with
        | none => .error (.ioError p)
        | some content =>
          match tokenize st1.macros content p with
          | .error e => .error e
          | .ok toks =>
            match collect_macros fs fuel st1 toks with
            | .error e => .error e
            | .ok st2 =>
              collect_macros fs fuel { st2 with include_stack := st2.include_stack.dropLast } rest
    | _ => collect_macros fs fuel st rest

/-- Pass 2: the emission loop of `process_tokens`, producing the list of
strings the source appends to `output`.  When the top of the conditional stack
is `false`, only `Else`/`Endif` reach `handle_conditional_directive` and every
other token is skipped, exactly as in the source.  An `Include` token performs
`process_include`: push the resolved path (without a cycle check, which only
pass 1 does), read and tokenize the file, run `process_tokens` on it
(collection followed by emission), and pop. -/
def pass2 (fs : FS) : Nat → Preprocessor → List Token → Except PError (List Str × Preprocessor)
  | _, st, [] => .ok ([], st)
  | 0, _, _ :: _ => .error .outOfFuel
  | fuel + 1, st, t :: rest =>
    if st.conditional_stack.getLast? = some false then
      if t.tok = .endif ∨ t.tok = .els then
        match handle_conditional_directive st t with
        | .error e => .error e
        | .ok st2 => pass2 fs fuel st2 rest
      else pass2 fs fuel st rest
    else
      match t.tok with
      | .incl v =>
        let p := resolveIncludePath t.file v
        let st1 := { st with include_stack := st.include_stack ++ [p] }
        match fsRead fs p with
        | none => .error (.ioError p)
        | some content =>
          match tokenize st1.macros content p with
          | .error e => .error e
          | .ok toks =>
            match collect_macros fs fuel st1 toks with
            | .error e => .error e
            | .ok st2 =>
              match pass2 fs fuel st2 toks with
              | .error e => .error e
              | .ok (outs, st3) =>
                let st4 := { st3 with include_stack := st3.include_stack.dropLast }
                match pass2 fs fuel st4 rest with
                | .error e => .error e
                | .ok (outs2, st5) =>
                  .ok (joinWith ['\n'] (outs.filter (fun s => s ≠ [])) :: outs2, st5)
      | .text s =>
        match process_text st.macros s with
        | .error e => .error e
        | .ok line =>
          match pass2 fs fuel st rest with
          | .ok (outs, st2) => .ok (line :: outs, st2)
          | .error e => .error e
      | .ifdef _ =>
        match handle_conditional_directive st t with
        | .error e => .error e
        | .ok st2 => pass2 fs fuel st2 rest
      | .ifndef _ =>
        match handle_conditional_directive st t with
        | .error e => .error e
        | .ok st2 => pass2 fs fuel st2 rest
      | .els =>
        match handle_conditional_directive st t with
        | .error e => .error e
        | .ok st2 => pass2 fs fuel st2 rest
      | .endif =>
        match handle_conditional_directive st t with
        | .error e => .error e
        | .ok st2 => pass2 fs fuel st2 rest
      | .undef v =>
        pass2 fs fuel
          { st with macros := dictErase st.macros v,
                    defined_symbols := setRemove st.defined_symbols v } rest
      | .define _ _ _ => pass2 fs fuel st rest

/-- `process_tokens`: pass 1 then pass 2, joining the non-empty emitted pieces
with newlines (`'\n'.join(filter(None, output))`).  Note that the source
performs no check on the conditional stack after the loop. -/
def process_tokens (fs : FS) (fuel : Nat) (st : Preprocessor) (tokens : List Token) :
    Except PError (Str × Preprocessor) :=
  match collect_macros fs fuel st tokens with
  | .error e => .error e
  | .ok st1 =>
    match pass2 fs fuel st1 tokens with
    | .error e => .error e
    | .ok (outs, st2) => .ok (joinWith ['\n'] (outs.filter (fun s => s ≠ [])), st2)

/-- `process_file(filepath, base_dir)`: read, tokenize (under the current
macro table), process. -/
def process_file (fs : FS) (fuel : Nat) (st : Preprocessor) (filepath : Str) :
    Except PError (Str × Preprocessor) :=
  match fsRead fs filepath with
  | none => .error (.ioError filepath)
  | some content =>
    match tokenize st.macros content filepath with
    | .error e => .error e
    | .ok tokens => process_tokens fs fuel st tokens

/-- The state of a freshly constructed `Preprocessor`. -/
def initState : Preprocessor := ⟨[], [], [], []⟩

/-- The message text of each `raise` site of the source. -/
def renderError : PError → Str
  | .circularInclude stack off =>
    lit "Circular inclusion detected:\n" ++
      joinWith ['\n'] ((stack ++ [off]).map (fun f => ' ' :: ' ' :: f))
  | .unmatchedParens => lit "Unmatched parentheses in macro definition"
  | .arityMismatch name expected got file line =>
    lit "Macro '" ++ name ++ lit "' expects " ++ Nat.toDigits 10 expected ++
      lit " arguments, but got " ++ Nat.toDigits 10 got ++ lit " in file " ++ file ++
      lit " at line " ++ Nat.toDigits 10 line
  | .strayElse => lit "#else without matching #if"
  | .strayEndif => lit "#endif without matching #if"
  | .ioError path => lit "could not open file " ++ path
  | .badReplTemplate => lit "bad escape or group reference in replacement"
  | .outOfFuel => lit "fuel exhausted (model artifact)"

/-! ### Auxiliary predicates and spec-side definitions -/

/-- Decidable substring test. -/
def isSubstrOf (pat : Str) : Str → Bool
  | [] => pat.isEmpty
  | c :: cs => pat.isPrefixOf (c :: cs) || isSubstrOf pat cs

/-- The call-start pattern `name` + whitespace run + `(` anchored at the head
of `s`. -/
def callStartsAt (name : Str) (s : Str) : Bool :=
  name.isPrefixOf s && (((s.drop name.length).dropWhile pyWs).head? == some '(')

/-- The call-start pattern occurring anywhere in the line. -/
def hasCallStart (name : Str) : Str → Bool
  | [] => callStartsAt name []
  | c :: cs => callStartsAt name (c :: cs) || hasCallStart name cs

/-- Modelled from the spec (section 4.3) for claim C6: simultaneous placeholder
substitution.  The body is scanned once, left to right; wherever the literal
placeholder `{p}` of some parameter (the first such, for definiteness) starts,
the corresponding argument text is emitted in its place; all other characters,
in particular bare parameter names without braces, are copied unchanged.  Fuel
is adequate from the length of the scanned text on; `simultSubst` supplies
it. -/
def simultSubstF (pairs : List (Str × Str)) : Nat → Str → Str
  | 0, s => s
  | _ + 1, [] => []
  | fuel + 1, c :: cs =>
    match pairs.find? (fun pr => (bracePat pr.1).isPrefixOf (c :: cs)) with
    | some pr => pr.2 ++ simultSubstF pairs fuel ((c :: cs).drop (pr.1.length + 2))
    | none => c :: simultSubstF pairs fuel cs

def simultSubst (pairs : List (Str × Str)) (s : Str) : Str := simultSubstF pairs s.length s

/-- Modelled from the spec (section 4.2) for claim C7: split a character
stream on the commas that sit at parenthesis-nesting depth zero, keeping every
(possibly empty) piece. -/
def splitTopLevel (depth : Int) : Str → List Str
  | [] => [[]]
  | c :: cs =>
    let d2 : Int := if c = '(' then depth + 1 else if c = ')' then depth - 1 else depth
    if c = ',' ∧ depth = 0 then [] :: splitTopLevel depth cs
    else
      match splitTopLevel d2 cs with
      | [] => [[]]
      | h :: t => (c :: h) :: t

/-- The character stream the argument splitter actually consumes: the lines of
the raw argument text, each stripped, concatenated. -/
def argStream (s : Str) : Str := ((splitOnChar '\n' s).map pyStrip).flatten

/-- The spec-side description of `parse_macro_args`: split the stream on
top-level commas, strip each piece, drop the empty ones. -/
def parse_macro_args_spec (s : Str) : List Str :=
  ((splitTopLevel 0 (argStream s)).map pyStrip).filter (fun a => a ≠ [])

/-- Strip every piece and keep the nonempty ones (the final comprehension of
`parse_macro_args`, as an operation on lists of pieces). -/
def stripFilter (l : List Str) : List Str := (l.map pyStrip).filter (fun a => a ≠ [])

/-- Graft pending characters onto the first piece of a split. -/
def prependFirst (cur : Str) : List Str → List Str
  | [] => [cur]
  | h :: t => (cur ++ h) :: t

/-- The trailing `if current_arg: args.append(...)` of `parse_macro_args`. -/
def finishArgs (st : PmaState) : List Str :=
  if st.current ≠ [] then st.args ++ [pyStrip st.current] else st.args

/-- The token stream of a directive-free, macro-call-free file: one `Text`
token per nonblank line, holding the stripped line (used to state what the
lexer does on such files; `i` is the 0-based index of the first line). -/
def plainTextTokens (fname : Str) : List Str → Nat → List Token
  | [], _ => []
  | l :: rest, i =>
    if pyStrip l = [] then plainTextTokens fname rest (i + 1)
    else ⟨.text (pyStrip l), i + 1, fname⟩ :: plainTextTokens fname rest (i + 1)

/-- The stripped nonblank lines of a file. -/
def strippedNonblank (ls : List Str) : List Str :=
  (ls.map pyStrip).filter (fun l => l ≠ [])

/-- A path the filesystem can serve. -/
def fsHasPath (fs : FS) (p : Str) : Prop := ∃ c, fsRead fs p = some c

/-- Every `Include` token of the list resolves to a readable file. -/
def goodTokens (fs : FS) (ts : List Token) : Prop :=
  ∀ t ∈ ts, ∀ v, t.tok = .incl v → fsHasPath fs (resolveIncludePath t.file v)

/-- The premise under which the include graph of `fs` is well defined: every
file of the filesystem tokenizes successfully under every macro table (the
lexer consults the table while harvesting multi-line macro calls, so the token
stream may depend on it), and every `Include` token so produced resolves to a
readable file. -/
def wfFS (fs : FS) : Prop :=
  ∀ p c, fsRead fs p = some c →
    ∀ table : List (Str × Macro), ∃ ts, tokenize table c p = .ok ts ∧ goodTokens fs ts

/-- A token that includes a file of `C`. -/
def inclInto (C : List Str) (t : Token) : Prop :=
  ∃ v, t.tok = .incl v ∧ resolveIncludePath t.file v ∈ C

/-- `C` is a set of readable files each of which, under every macro table,
yields an `Include` token pointing back into `C`: the node set of a cycle of
the include graph.  (Every include cycle is such a set, and every nonempty
such set contains a cycle.) -/
def cycClosed (fs : FS) (C : List Str) : Prop :=
  ∀ p ∈ C, fsHasPath fs p ∧
    ∀ c, fsRead fs p = some c →
      ∀ (table : List (Str × Macro)) (ts : List Token),
        tokenize table c p = .ok ts → ∃ t ∈ ts, inclInto C t

/-- The set of readable paths, as a finset (the measure of the cycle-detection
termination argument). -/
def fsDom (fs : FS) : Finset Str := (fs.map Prod.fst).toFinset

/-!
## Theorems

One principal theorem per claim of the specification audit, together with
counterexample and witness theorems where required.
-/

/-- C1: evaluation of the code at the failing input.  `collect_macro_body`
appends the whole `#define` line (up to its last `)`) into the body, so the
stored body is not the text after the body-opening `(`: processing the file
`#define GREET(who)(<p>hello, {who}</p>)` + `GREET(world)` produces an output
that does contain `<p>hello, world</p>` but also retains the directive prefix
`#define GREET(who)(`, contradicting the claim that nothing of the `#define`
line survives into the output. -/
theorem c1_define_line_leaks_into_output :
    (process_file
        [(lit "index.html", lit "#define GREET(who)(<p>hello, {who}</p>)\nGREET(world)")]
        20 initState (lit "index.html")).map Prod.fst =
      .ok (lit "#define GREET(who)(<p>hello, world</p>") ∧
    isSubstrOf (lit "<p>hello, world</p>")
      (lit "#define GREET(who)(<p>hello, world</p>") = true ∧
    isSubstrOf (lit "#define GREET(who)(")
      (lit "#define GREET(who)(<p>hello, world</p>") = true :=
  ⟨rfl, by decide, by decide⟩

/-- C2: evaluation of the code at the failing input.  With the top of the
conditional stack `false`, an `Ifdef` token is skipped without pushing (only
`Else`/`Endif` reach `handle_conditional_directive`), so in
`#ifdef U / #ifdef X / #endif / #endif` with `U` undefined the first `#endif`
pops the outer conditional and the second raises the stray-`#endif` error
instead of the claimed balanced pop. -/
theorem c2_suppressed_nested_ifdef_not_pushed :
    process_file [(lit "f", lit "#ifdef U\n#ifdef X\n#endif\n#endif")] 20 initState (lit "f") =
      .error .strayEndif := rfl

/-- C4: evaluation of the code at the failing input.  `process_tokens` performs
no check on the conditional stack after its loop, so a root file consisting of
`#ifdef X` with no `#endif` is processed successfully (empty output, and the
dangling `false` is left on the conditional stack) instead of raising the
claimed fatal error. -/
theorem c4_unterminated_conditional_returns_ok :
    process_file [(lit "f", lit "#ifdef X\nhello")] 20 initState (lit "f") =
      .ok (lit "", ⟨[], [], [], [false]⟩) ∧ ([false] : List Bool) ≠ [] :=
  ⟨rfl, by decide⟩

/-- C3 counterexample: with macro `A` (no parameters, body `B(HI)`) inserted
into the table before macro `B` (parameter `x`, body `[{x}]`), processing the
text token `A()` first splices in A's expansion `B(HI)` and then, while
iterating the remaining macros of the table over the rewritten line, expands
the call of `B` that A's expansion introduced: the emitted output is `[HI]`,
and the inner call does not appear verbatim in it. -/
theorem c3_counterexample :
    process_text
        [(lit "A", ⟨lit "A", [], lit "B(HI)", lit "f", 1⟩),
         (lit "B", ⟨lit "B", [lit "x"], lit "[{x}]", lit "f", 2⟩)]
        (lit "A()") = .ok (lit "[HI]") ∧
    isSubstrOf (lit "B(HI)") (lit "[HI]") = false :=
  ⟨rfl, by decide⟩

/-- C3 amended: expansion replaces at most one call per macro of the table per
Text token, trying the macros in insertion order on the progressively
rewritten line, so an expansion is re-scanned exactly by the macros that come
later in insertion order: with the table `A` then `B`, the `B(HI)` produced by
`A` is expanded (output `[HI]`), while with the table `B` then `A` the same
inner call survives verbatim (output `B(HI)`). -/
theorem c3_amended :
    process_text
        [(lit "A", ⟨lit "A", [], lit "B(HI)", lit "f", 1⟩),
         (lit "B", ⟨lit "B", [lit "x"], lit "[{x}]", lit "f", 2⟩)]
        (lit "A()") = .ok (lit "[HI]") ∧
    process_text
        [(lit "B", ⟨lit "B", [lit "x"], lit "[{x}]", lit "f", 2⟩),
         (lit "A", ⟨lit "A", [], lit "B(HI)", lit "f", 1⟩)]
        (lit "A()") = .ok (lit "B(HI)") :=
  ⟨rfl, rfl⟩

/-- C6 counterexample: substitution is sequential, not simultaneous.  For the
macro `M(a, b)` with body `{a}` and arguments `{b}` and `X`, the code first
replaces `{a}` by the argument text `{b}` and then rewrites that freshly
introduced placeholder to `X`; under the claim's reading (each placeholder of
the body replaced by the exact argument text, nothing else changed, as computed
by `simultSubst`), the result would be `{b}`. -/
theorem c6_counterexample :
    expand_macro ⟨lit "M", [lit "a", lit "b"], lit "{a}", lit "f", 1⟩ [lit "{b}", lit "X"] =
      .ok (lit "X") ∧
    simultSubst [(lit "a", lit "{b}"), (lit "b", lit "X")] (lit "{a}") = lit "{b}" ∧
    (lit "X" : Str) ≠ lit "{b}" :=
  ⟨rfl, rfl, by decide⟩

/-- C7 counterexample: an empty argument between two commas before a non-empty
argument is dropped, not kept: `a,,b` parses to `[a, b]`, not `[a, "", b]`. -/
theorem c7_counterexample :
    parse_macro_args (lit "a,,b") = [lit "a", lit "b"] ∧
    [lit "a", lit "b"] ≠ [lit "a", lit "", lit "b"] :=
  ⟨rfl, by decide⟩

/-- C8 counterexample: text lines are stripped, so leading and trailing
whitespace of a directive-free, macro-free line is not preserved byte for
byte: the one-line file `  hi  ` is emitted as `hi`. -/
theorem c8_counterexample :
    (process_file [(lit "f", lit "  hi  ")] 20 initState (lit "f")).map Prod.fst =
      .ok (lit "hi") ∧ lit "hi" ≠ lit "  hi  " :=
  ⟨rfl, by decide⟩

/-- C9 counterexample: when the prior state already contains a macro named `X`,
pass 1 of `#define X()(v)` overwrites that entry and the `#undef X` of pass 2
then deletes it outright, so the macro table (and symbol set) do not return to
the prior state: starting from a table holding `X`, processing the file leaves
an empty table. -/
theorem c9_counterexample :
    process_file [(lit "f", lit "#define X()(v)\n#undef X")] 20
        ⟨[], [(lit "X", ⟨lit "X", [], lit "old", lit "g", 7⟩)], [lit "X"], []⟩ (lit "f") =
      .ok (lit "", ⟨[], [], [], []⟩) ∧
    ([] : List (Str × Macro)) ≠ [(lit "X", ⟨lit "X", [], lit "old", lit "g", 7⟩)] :=
  ⟨rfl, by decide⟩

/-- Splitting on a character that does not occur leaves the text whole. -/
theorem splitOnChar_eq_single (c : Char) (l : Str) (h : c ∉ l) : splitOnChar c l = [l] := by
  induction l with
  | nil => rfl
  | cons a rest ih =>
    have hr : c ∉ rest := fun hm => h (List.mem_cons_of_mem _ hm)
    have ha : a ≠ c := fun hac => h (hac ▸ List.mem_cons_self _ _)
    simp [splitOnChar, ih hr, ha]

/-- A list with a nonempty prefix is nonempty. -/
theorem ne_nil_of_isPrefixOf (p x : Str) (hp : p ≠ []) (h : p.isPrefixOf x = true) : x ≠ [] := by
  intro hx
  subst hx
  cases p with
  | nil => exact hp rfl
  | cons a as => simp [List.isPrefixOf] at h

/-- C10: a line that begins (after stripping) with `#include` but does not
match the include regex is consumed by the lexer without producing any token
and without raising: tokenizing a file consisting of that single line yields
the empty token list, under any macro table.  In particular nothing of the
line reaches the output. -/
theorem c10_bad_include_line_dropped (table : List (Str × Macro)) (filename l : Str)
    (hnl : '\n' ∉ l) (hpre : (lit "#include").isPrefixOf (pyStrip l) = true)
    (hmatch : matchInclude (pyStrip l) = none) :
    tokenize table l filename = .ok [] := by
  have hne : pyStrip l ≠ [] := ne_nil_of_isPrefixOf _ _ (by decide) hpre
  simp only [tokenize, splitOnChar_eq_single '\n' l hnl]
  simp [tokenize_aux, hne, hpre, hmatch]

/-- C10 witness: the spec's own example `#include index.html`. -/
theorem c10_bad_include_line_dropped_witness :
    tokenize [] (lit "#include index.html") (lit "f") = .ok [] :=
  c10_bad_include_line_dropped [] (lit "f") (lit "#include index.html")
    (by decide) (by decide) (by decide)

/-- Erasing a freshly inserted key restores a table that did not contain it. -/
theorem dictErase_dictInsert_of_not_mem (tbl : List (Str × Macro)) (k : Str) (v : Macro)
    (h : dictLookup tbl k = none) : dictErase (dictInsert tbl k v) k = tbl := by
  induction tbl with
  | nil => simp [dictInsert, dictErase]
  | cons p rest ih =>
    obtain ⟨k2, v2⟩ := p
    by_cases hk : k2 = k
    · simp [dictLookup, hk] at h
    · simp [dictLookup, hk] at h
      simp [dictInsert, dictErase, hk, ih h]

/-- Removing a freshly added element restores a set that did not contain it. -/
theorem setRemove_setAdd_of_not_mem (s : List Str) (x : Str) (h : x ∉ s) :
    setRemove (setAdd s x) x = s := by
  simp only [setAdd, if_neg h, setRemove, List.filter_append]
  have h1 : s.filter (fun y => y ≠ x) = s :=
    List.filter_eq_self.mpr (fun a ha => by
      simp only [decide_eq_true_eq]
      exact fun hax => h (hax ▸ ha))
  have h2 : List.filter (fun y => y ≠ x) [x] = [] := by simp
  rw [h1, h2, List.append_nil]

/-- C9 amended: processing `#define X()(v)` followed by `#undef X` leaves the
macro table and the defined-symbol set identical to the prior state provided
that state contained no macro or symbol named `X` (and its conditional stack
was empty); when a macro named `X` was already present, pass 1 overwrites it
and the `#undef` then removes it entirely (see the counterexample). -/
theorem c9_amended (st : Preprocessor)
    (hcond : st.conditional_stack = [])
    (hmac : dictLookup st.macros (lit "X") = none)
    (hsym : lit "X" ∉ st.defined_symbols) :
    process_file [(lit "f", lit "#define X()(v)\n#undef X")] 20 st (lit "f") =
      .ok (lit "", st) := by
  obtain ⟨is, ms, ds, cs⟩ := st
  dsimp only at hcond hmac hsym
  subst hcond
  have hstep : process_file [(lit "f", lit "#define X()(v)\n#undef X")] 20
      ⟨is, ms, ds, []⟩ (lit "f") =
      .ok (lit "",
        ⟨is,
         dictErase (dictInsert ms (lit "X")
           ⟨lit "X", [], lit "#define X()(v", lit "f", 1⟩) (lit "X"),
         setRemove (setAdd ds (lit "X")) (lit "X"), []⟩) := rfl
  rw [hstep, dictErase_dictInsert_of_not_mem _ _ _ hmac, setRemove_setAdd_of_not_mem _ _ hsym]

/-- C9 amended, witness: a fresh preprocessor state. -/
theorem c9_amended_witness :
    process_file [(lit "f", lit "#define X()(v)\n#undef X")] 20 initState (lit "f") =
      .ok (lit "", initState) :=
  c9_amended initState rfl rfl (by decide)

/-! ### Lemmas on stripping (towards C7 and C8) -/

theorem length_dropWhile_le' (p : Char → Bool) (l : Str) :
    (List.dropWhile p l).length ≤ l.length := by
  induction l with
  | nil => simp
  | cons a t ih =>
    by_cases h : p a
    · simp only [List.dropWhile_cons, if_pos h, List.length_cons]
      omega
    · simp [List.dropWhile_cons, h]

theorem dropWhile_eq_self_of_head? (p : Char → Bool) (x : Str)
    (h : ∀ c, x.head? = some c → p c = false) : List.dropWhile p x = x := by
  cases x with
  | nil => rfl
  | cons a t => simp [List.dropWhile_cons, h a rfl]

theorem head?_eq_of_prefix (x y : Str) (hx : x ≠ []) (h : x <+: y) : y.head? = x.head? := by
  obtain ⟨t, rfl⟩ := h
  cases x with
  | nil => exact absurd rfl hx
  | cons a s => rfl

theorem head?_not_of_dropWhile_self (p : Char → Bool) (y : Str)
    (h : List.dropWhile p y = y) : ∀ c, y.head? = some c → p c = false := by
  intro c hc
  cases y with
  | nil => simp at hc
  | cons a t =>
    obtain rfl : a = c := by simpa using hc
    by_contra hp
    simp only [Bool.not_eq_false] at hp
    rw [List.dropWhile_cons, if_pos hp] at h
    have hlen := congrArg List.length h
    have := length_dropWhile_le' p t
    simp at hlen
    omega

theorem pyRstrip_eq_rdropWhile (s : Str) : pyRstrip s = List.rdropWhile pyWs s := rfl

theorem pyStrip_idem (s : Str) : pyStrip (pyStrip s) = pyStrip s := by
  show pyRstrip (pyLstrip (pyRstrip (pyLstrip s))) = pyRstrip (pyLstrip s)
  have hy : List.dropWhile pyWs (pyLstrip s) = pyLstrip s :=
    List.dropWhile_idempotent pyWs s
  generalize pyLstrip s = y at hy ⊢
  have hpre : pyRstrip y <+: y := by
    rw [pyRstrip_eq_rdropWhile]; exact List.rdropWhile_prefix pyWs y
  have hA : pyLstrip (pyRstrip y) = pyRstrip y := by
    apply dropWhile_eq_self_of_head?
    intro c hc
    by_cases hnil : pyRstrip y = []
    · rw [hnil] at hc; simp at hc
    · have hhd := head?_eq_of_prefix _ _ hnil hpre
      exact head?_not_of_dropWhile_self pyWs y hy c (hhd.symm ▸ hc)
  rw [hA, pyRstrip_eq_rdropWhile, pyRstrip_eq_rdropWhile, List.rdropWhile_idempotent]

theorem stripFilter_append (a b : List Str) :
    stripFilter (a ++ b) = stripFilter a ++ stripFilter b := by
  simp [stripFilter, List.filter_append]

theorem stripFilter_cons (a : Str) (l : List Str) :
    stripFilter (a :: l) = (if pyStrip a = [] then [] else [pyStrip a]) ++ stripFilter l := by
  simp only [stripFilter, List.map_cons, List.filter_cons]
  by_cases h : pyStrip a = [] <;> simp [h]

theorem splitTopLevel_ne_nil (d : Int) (cs : Str) : splitTopLevel d cs ≠ [] := by
  cases cs with
  | nil => simp [splitTopLevel]
  | cons c cs =>
    simp only [splitTopLevel]
    by_cases h : c = ',' ∧ d = 0
    · simp [h]
    · simp only [if_neg h]
      match splitTopLevel (if c = '(' then d + 1 else if c = ')' then d - 1 else d) cs with
      | [] => simp
      | h :: t => simp

theorem prependFirst_nil_left (ps : List Str) (h : ps ≠ []) : prependFirst [] ps = ps := by
  cases ps with
  | nil => exact absurd rfl h
  | cons a t => simp [prependFirst]

/-- The argument-splitting machine computes, up to the final strip-and-filter,
the top-level-comma split of the remaining stream grafted onto its pending
state. -/
theorem pma_run_spec (cs : Str) : ∀ st : PmaState,
    stripFilter (finishArgs (cs.foldl pmaStep st)) =
      stripFilter st.args ++
        stripFilter (prependFirst st.current (splitTopLevel st.depth cs)) := by
  induction cs with
  | nil =>
    intro st
    obtain ⟨args, cur, d⟩ := st
    simp only [List.foldl_nil, splitTopLevel, prependFirst, List.append_nil]
    by_cases hcur : cur = []
    · subst hcur
      simp [finishArgs, stripFilter_cons, stripFilter, pyStrip, pyLstrip, pyRstrip]
    · have hfin : finishArgs ⟨args, cur, d⟩ = args ++ [pyStrip cur] := by
        simp [finishArgs, hcur]
      rw [hfin, stripFilter_append]
      simp [stripFilter_cons, pyStrip_idem, stripFilter]
  | cons c cs ih =>
    intro st
    obtain ⟨args, cur, d⟩ := st
    rw [List.foldl_cons]
    by_cases hc : c = ',' ∧ d = 0
    · obtain ⟨rfl, rfl⟩ := hc
      have hsplit : splitTopLevel 0 (',' :: cs) = [] :: splitTopLevel 0 cs := by
        simp [splitTopLevel]
      by_cases hne : cur = []
      · subst hne
        have hstep : pmaStep ⟨args, [], 0⟩ ',' = ⟨args, [], 0⟩ := by simp [pmaStep]
        rw [hstep, hsplit, ih ⟨args, [], 0⟩]
        have hps := splitTopLevel_ne_nil 0 cs
        rw [prependFirst_nil_left _ hps]
        simp [prependFirst, stripFilter_cons, stripFilter, pyStrip, pyLstrip, pyRstrip]
      · have hstep : pmaStep ⟨args, cur, 0⟩ ',' = ⟨args ++ [pyStrip cur], [], 0⟩ := by
          simp [pmaStep, hne]
        rw [hstep, hsplit, ih ⟨args ++ [pyStrip cur], [], 0⟩]
        have hps := splitTopLevel_ne_nil 0 cs
        rw [prependFirst_nil_left _ hps, stripFilter_append]
        simp only [prependFirst, stripFilter_cons, stripFilter, pyStrip_idem,
          List.append_assoc, List.filter_cons, List.append_nil, List.map_cons]
        by_cases hsc : pyStrip cur = [] <;> simp [hsc]
    · have hd2 :
          splitTopLevel d (c :: cs) =
            match splitTopLevel (if c = '(' then d + 1 else if c = ')' then d - 1 else d) cs with
            | [] => [[]]
            | h :: t => (c :: h) :: t := by
        simp only [splitTopLevel, if_neg hc]
      have hstep : pmaStep ⟨args, cur, d⟩ c =
          ⟨args, cur ++ [c], if c = '(' then d + 1 else if c = ')' then d - 1 else d⟩ := by
        by_cases h1 : c = '('
        · simp [pmaStep, h1]
        · by_cases h2 : c = ')'
          · simp [pmaStep, h1, h2]
          · simp [pmaStep, h1, h2, hc]
      obtain ⟨h, t, hht⟩ := List.exists_cons_of_ne_nil
        (splitTopLevel_ne_nil (if c = '(' then d + 1 else if c = ')' then d - 1 else d) cs)
      rw [hstep, ih ⟨args, cur ++ [c], _⟩, hd2, hht]
      simp [prependFirst, List.append_assoc]

/-- Folding the machine line by line over the stripped lines equals folding it
over their concatenation. -/
theorem foldl_lines_eq_foldl_flatten (lines : List Str) (st : PmaState) :
    lines.foldl (fun st l => (pyStrip l).foldl pmaStep st) st =
      ((lines.map pyStrip).flatten).foldl pmaStep st := by
  induction lines generalizing st with
  | nil => rfl
  | cons l rest ih => simp [List.foldl_append, ih]

/-- C7 amended: `parse_macro_args` splits the stream of stripped lines on the
commas at parenthesis depth zero, trims every piece, and drops every piece
that is empty after trimming -- wherever it occurs, not only at the tail; in
particular no returned argument is ever the empty string. -/
theorem c7_amended (s : Str) :
    parse_macro_args s = parse_macro_args_spec s ∧ ∀ a ∈ parse_macro_args s, a ≠ [] := by
  have hmain : parse_macro_args s = parse_macro_args_spec s := by
    show stripFilter (finishArgs ((splitOnChar '\n' s).foldl
        (fun st l => (pyStrip l).foldl pmaStep st) ⟨[], [], 0⟩)) = _
    rw [foldl_lines_eq_foldl_flatten, pma_run_spec]
    have hps := splitTopLevel_ne_nil 0 (((splitOnChar '\n' s).map pyStrip).flatten)
    show stripFilter [] ++ stripFilter (prependFirst [] _) = _
    rw [prependFirst_nil_left _ hps]
    rfl
  refine ⟨hmain, fun a ha => ?_⟩
  have : parse_macro_args s =
      ((splitTopLevel 0 (argStream s)).map pyStrip).filter (fun a => a ≠ []) := hmain
  rw [this] at ha
  simp only [List.mem_filter, ne_eq, decide_not, Bool.not_eq_false', decide_eq_true_eq] at ha
  intro hnil
  rcases ha with ⟨-, ha2⟩
  simp [hnil] at ha2

/-! ### Lemmas towards C8: directive-free, call-free files -/

theorem isPrefixOf_eq_false_of_head_ne (p x : Str) (c : Char)
    (hp : p.head? = some c) (hx : x.head? ≠ some c) : p.isPrefixOf x = false := by
  cases p with
  | nil => simp at hp
  | cons a p2 =>
    obtain rfl : a = c := by simpa using hp
    cases x with
    | nil => rfl
    | cons b x2 =>
      have hb : b ≠ a := fun h => hx (by simp [h])
      have hcb : (a == b) = false := beq_eq_false_iff_ne.mpr (Ne.symm hb)
      simp [List.isPrefixOf, hcb]

theorem matchDefine_eq_none_of_not_prefix (line : Str)
    (h : (lit "#define").isPrefixOf line = false) : matchDefine line = none := by
  unfold matchDefine
  simp [h]

theorem drop_length_takeWhile (p : Char → Bool) (l : Str) :
    l.drop (l.takeWhile p).length = l.dropWhile p := by
  have h := List.drop_left (l.takeWhile p) (l.dropWhile p)
  rw [List.takeWhile_append_dropWhile] at h
  exact h

theorem matchCallStart_callStartsAt (line w : Str) (h : matchCallStart line = some w) :
    callStartsAt w line = true := by
  unfold matchCallStart at h
  by_cases h1 : line.takeWhile isWordChar = []
  · simp [h1] at h
  · by_cases h2 : ((line.dropWhile isWordChar).dropWhile pyWs).head? = some '('
    · rw [if_neg h1, if_pos h2] at h
      obtain rfl : line.takeWhile isWordChar = w := by simpa using h
      have hpre : (line.takeWhile isWordChar).isPrefixOf line = true :=
        List.isPrefixOf_iff_prefix.mpr (List.takeWhile_prefix _)
      unfold callStartsAt
      rw [drop_length_takeWhile, hpre, h2]
      simp
    · rw [if_neg h1, if_neg h2] at h
      exact absurd h (by simp)

theorem dictLookup_some_mem (tbl : List (Str × Macro)) (k : Str) (v : Macro)
    (h : dictLookup tbl k = some v) : (k, v) ∈ tbl := by
  induction tbl with
  | nil => simp [dictLookup] at h
  | cons p rest ih =>
    obtain ⟨k2, v2⟩ := p
    by_cases hk : k2 = k
    · subst hk
      have hl : dictLookup ((k2, v2) :: rest) k2 = some v2 := by simp [dictLookup]
      rw [hl] at h
      obtain rfl : v2 = v := by simpa using h
      exact List.mem_cons_self _ _
    · simp only [dictLookup, if_neg hk] at h
      exact List.mem_cons_of_mem _ (ih h)

theorem findCallAt_eq_none (name s : Str) (h : callStartsAt name s = false) :
    findCallAt name s = none := by
  unfold callStartsAt at h
  unfold findCallAt
  by_cases h1 : name.isPrefixOf s = true
  · rw [h1, Bool.true_and] at h
    rw [if_pos h1]
    have h2 : ¬ ((s.drop name.length).dropWhile pyWs).head? = some '(' := by
      intro hc
      rw [hc] at h
      simp at h
    rw [if_neg h2]
  · rw [if_neg (by simpa using h1)]

theorem hasCallStart_of_callStartsAt (name s : Str) (h : callStartsAt name s = true) :
    hasCallStart name s = true := by
  cases s with
  | nil => simpa [hasCallStart] using h
  | cons c cs => simp [hasCallStart, h]

theorem findMacroCall_eq_none (name s : Str) (h : hasCallStart name s = false) :
    findMacroCall name s = none := by
  induction s with
  | nil =>
    unfold hasCallStart at h
    unfold findMacroCall
    rw [findCallAt_eq_none _ _ h]
  | cons c cs ih =>
    unfold hasCallStart at h
    rw [Bool.or_eq_false_iff] at h
    unfold findMacroCall
    rw [findCallAt_eq_none _ _ h.1, ih h.2]

theorem process_text_id (macros : List (Str × Macro)) (s : Str)
    (h : ∀ pr ∈ macros, findMacroCall pr.1 s = none) : process_text macros s = .ok s := by
  induction macros with
  | nil => rfl
  | cons pr rest ih =>
    have h1 := h pr (List.mem_cons_self _ _)
    have step : process_text (pr :: rest) s = process_text rest s := by
      unfold process_text
      rw [List.foldlM_cons, h1]
      rfl
    rw [step]
    exact ih (fun q hq => h q (List.mem_cons_of_mem _ hq))

/-- One lexer step on a blank line. -/
theorem tokenize_aux_step_blank (table : List (Str × Macro)) (fname : Str)
    (lines : List Str) (fuel i : Nat) (raw : Str) (rest2 : List Str)
    (hdrop : lines.drop i = raw :: rest2) (hblank : pyStrip raw = []) :
    tokenize_aux table fname lines (fuel + 1) i = tokenize_aux table fname lines fuel (i + 1) := by
  conv_lhs => rw [tokenize_aux]
  rw [hdrop]
  simp [hblank]

/-- One lexer step on a nonblank line that starts no directive and no
macro-call harvest: the stripped line becomes a `Text` token. -/
theorem tokenize_aux_step_plain (table : List (Str × Macro)) (fname : Str)
    (lines : List Str) (fuel i : Nat) (raw : Str) (rest2 : List Str)
    (hdrop : lines.drop i = raw :: rest2)
    (hblank : pyStrip raw ≠ [])
    (hhash : (pyStrip raw).head? ≠ some '#')
    (hcall : ∀ pr ∈ table, hasCallStart pr.1 (pyStrip raw) = false) :
    tokenize_aux table fname lines (fuel + 1) i =
      consTok ⟨.text (pyStrip raw), i + 1, fname⟩ (tokenize_aux table fname lines fuel (i + 1)) := by
  have hpre : ∀ kw : String, (lit kw).head? = some '#' →
      (lit kw).isPrefixOf (pyStrip raw) = false := fun kw hk =>
    isPrefixOf_eq_false_of_head_ne _ _ '#' hk hhash
  have hinc := hpre "#include" (by decide)
  have hdef := hpre "#define" (by decide)
  have hifd := hpre "#ifdef" (by decide)
  have hifn := hpre "#ifndef" (by decide)
  have hels := hpre "#else" (by decide)
  have hend := hpre "#endif" (by decide)
  have hund := hpre "#undef" (by decide)
  have hmdef : matchDefine (pyStrip raw) = none := matchDefine_eq_none_of_not_prefix _ hdef
  conv_lhs => rw [tokenize_aux]
  rw [hdrop]
  simp only [if_neg hblank, hinc, hdef, hifd, hifn, hels, hend, hund, hmdef, Bool.false_eq_true,
    if_false]
  by_cases hpar : (pyStrip raw).contains '(' = true
  · rw [if_pos hpar]
    cases hmcs : matchCallStart (pyStrip raw) with
    | none => rfl
    | some w =>
      have hcsa := matchCallStart_callStartsAt _ _ hmcs
      have hlk : dictLookup table w = none := by
        cases hdl : dictLookup table w with
        | none => rfl
        | some v =>
          have hmem2 := dictLookup_some_mem _ _ _ hdl
          have hfalse := hcall (w, v) hmem2
          rw [hasCallStart_of_callStartsAt _ _ hcsa] at hfalse
          exact absurd hfalse (by simp)
      simp [hlk]
  · rw [if_neg hpar]

/-- The lexer on a directive-free, call-free file: one `Text` token per
nonblank line, holding the stripped line. -/
theorem tokenize_aux_plain (table : List (Str × Macro)) (fname : Str) (lines : List Str)
    (hl : ∀ l ∈ lines, (pyStrip l).head? ≠ some '#' ∧
      ∀ pr ∈ table, hasCallStart pr.1 (pyStrip l) = false) :
    ∀ fuel i, lines.length ≤ fuel + i →
      tokenize_aux table fname lines fuel i = .ok (plainTextTokens fname (lines.drop i) i) := by
  intro fuel
  induction fuel with
  | zero =>
    intro i hi
    unfold tokenize_aux
    rw [if_neg (by omega), List.drop_eq_nil_of_le (by omega)]
    rfl
  | succ fuel ih =>
    intro i hi
    cases hdrop : lines.drop i with
    | nil =>
      conv_lhs => rw [tokenize_aux]
      rw [hdrop]
      rfl
    | cons raw rest2 =>
      have hmem : raw ∈ lines := (List.drop_suffix i lines).mem (hdrop ▸ List.mem_cons_self _ _)
      obtain ⟨hhash, hcall⟩ := hl raw hmem
      have hdrop1 : lines.drop (i + 1) = rest2 := by
        have h2 := List.drop_drop 1 i lines
        rw [hdrop] at h2
        simpa [Nat.add_comm] using h2.symm
      by_cases hblank : pyStrip raw = []
      · rw [tokenize_aux_step_blank table fname lines fuel i raw rest2 hdrop hblank,
          ih (i + 1) (by omega), hdrop1]
        simp [plainTextTokens, hblank]
      · rw [tokenize_aux_step_plain table fname lines fuel i raw rest2 hdrop hblank hhash hcall,
          ih (i + 1) (by omega), hdrop1]
        simp [plainTextTokens, hblank, consTok]

/-- Every token of `plainTextTokens` is a `Text` token. -/
theorem plainTextTokens_text (fname : Str) :
    ∀ ls i t, t ∈ plainTextTokens fname ls i → ∃ s, t.tok = .text s := by
  intro ls
  induction ls with
  | nil => intro i t ht; simp [plainTextTokens] at ht
  | cons l rest ih =>
    intro i t ht
    by_cases hb : pyStrip l = []
    · rw [show plainTextTokens fname (l :: rest) i = plainTextTokens fname rest (i + 1) by
        simp [plainTextTokens, hb]] at ht
      exact ih (i + 1) t ht
    · rw [show plainTextTokens fname (l :: rest) i =
          ⟨.text (pyStrip l), i + 1, fname⟩ :: plainTextTokens fname rest (i + 1) by
        simp [plainTextTokens, hb]] at ht
      rcases List.mem_cons.mp ht with h | h
      · exact ⟨pyStrip l, by rw [h]⟩
      · exact ih (i + 1) t h

theorem plainTextTokens_length_le (fname : Str) :
    ∀ ls i, (plainTextTokens fname ls i).length ≤ ls.length := by
  intro ls
  induction ls with
  | nil => intro i; simp [plainTextTokens]
  | cons l rest ih =>
    intro i
    by_cases hb : pyStrip l = [] <;> simp only [plainTextTokens, hb] <;> simp
    · exact Nat.le_succ_of_le (ih (i + 1))
    · exact ih (i + 1)

/-- Pass 1 on a stream of `Text` tokens changes nothing. -/
theorem collect_macros_texts (fs : FS) :
    ∀ ts : List Token, (∀ t ∈ ts, ∃ s, t.tok = .text s) →
      ∀ fuel st, ts.length ≤ fuel → collect_macros fs fuel st ts = .ok st := by
  intro ts
  induction ts with
  | nil => intro _ fuel st _; cases fuel <;> rfl
  | cons t rest ih =>
    intro hall fuel st hf
    obtain ⟨s, hs⟩ := hall t (List.mem_cons_self _ _)
    match fuel with
    | 0 => simp at hf
    | fuel + 1 =>
      have step : collect_macros fs (fuel + 1) st (t :: rest) = collect_macros fs fuel st rest := by
        conv_lhs => rw [collect_macros]
        rw [hs]
      rw [step]
      exact ih (fun q hq => hall q (List.mem_cons_of_mem _ hq)) fuel st
        (by simpa using Nat.le_of_succ_le_succ hf)

/-- Pass 2 on the `Text` tokens of a call-free file emits the stripped
nonblank lines and leaves the state unchanged. -/
theorem pass2_plain (fs : FS) (fname : Str) (is : List Str) (ms : List (Str × Macro))
    (ds : List Str) :
    ∀ ls : List Str, (∀ l ∈ ls, ∀ pr ∈ ms, hasCallStart pr.1 (pyStrip l) = false) →
      ∀ i fuel, ls.length ≤ fuel →
      pass2 fs fuel ⟨is, ms, ds, []⟩ (plainTextTokens fname ls i) =
        .ok (strippedNonblank ls, ⟨is, ms, ds, []⟩) := by
  intro ls
  induction ls with
  | nil => intro _ i fuel _; cases fuel <;> rfl
  | cons l rest ih =>
    intro hcall i fuel hf
    have hrest : ∀ l2 ∈ rest, ∀ pr ∈ ms, hasCallStart pr.1 (pyStrip l2) = false :=
      fun l2 h2 => hcall l2 (List.mem_cons_of_mem _ h2)
    by_cases hb : pyStrip l = []
    · rw [show plainTextTokens fname (l :: rest) i = plainTextTokens fname rest (i + 1) by
        simp [plainTextTokens, hb]]
      rw [ih hrest (i + 1) fuel (by simp at hf ⊢; omega)]
      simp [strippedNonblank, List.filter_cons, hb]
    · match fuel with
      | 0 => simp at hf
      | fuel + 1 =>
        rw [show plainTextTokens fname (l :: rest) i =
            ⟨.text (pyStrip l), i + 1, fname⟩ :: plainTextTokens fname rest (i + 1) by
          simp [plainTextTokens, hb]]
        have hpt : process_text ms (pyStrip l) = .ok (pyStrip l) :=
          process_text_id _ _ (fun pr hpr =>
            findMacroCall_eq_none _ _ (hcall l (List.mem_cons_self _ _) pr hpr))
        have step : pass2 fs (fuel + 1) ⟨is, ms, ds, []⟩
            (⟨.text (pyStrip l), i + 1, fname⟩ :: plainTextTokens fname rest (i + 1)) =
            match pass2 fs fuel ⟨is, ms, ds, []⟩ (plainTextTokens fname rest (i + 1)) with
            | .ok (outs, st2) => .ok (pyStrip l :: outs, st2)
            | .error e => .error e := by
          conv_lhs => rw [pass2]
          simp [hpt]
        rw [step, ih hrest (i + 1) fuel (by simp at hf ⊢; omega)]
        simp [strippedNonblank, List.filter_cons, hb]

/-- C8 amended: a file none of whose stripped lines starts with `#` and none
of whose lines contains a table-macro's name followed by optional whitespace
and `(` is emitted as its stripped nonblank lines joined by newlines: blank
lines are dropped and every other line loses exactly its leading and trailing
whitespace (so lines are not preserved byte for byte, see the counterexample);
the preprocessor state is unchanged (given an empty conditional stack). -/
theorem c8_amended (content fname : Str) (st : Preprocessor) (fuel : Nat)
    (hcond : st.conditional_stack = [])
    (hl : ∀ l ∈ splitOnChar '\n' content, (pyStrip l).head? ≠ some '#' ∧
        ∀ pr ∈ st.macros, hasCallStart pr.1 (pyStrip l) = false)
    (hfuel : (splitOnChar '\n' content).length ≤ fuel) :
    process_file [(fname, content)] fuel st fname =
      .ok (joinWith ['\n'] (strippedNonblank (splitOnChar '\n' content)), st) := by
  obtain ⟨is, ms, ds, cs⟩ := st
  dsimp only at hcond hl
  subst hcond
  have hread : fsRead [(fname, content)] fname = some content := by simp [fsRead]
  have htok : tokenize ms content fname =
      .ok (plainTextTokens fname (splitOnChar '\n' content) 0) := by
    unfold tokenize
    rw [tokenize_aux_plain ms fname (splitOnChar '\n' content) hl
      (splitOnChar '\n' content).length 0 (by omega)]
    rw [List.drop_zero]
  have hcollect : collect_macros [(fname, content)] fuel ⟨is, ms, ds, []⟩
      (plainTextTokens fname (splitOnChar '\n' content) 0) = .ok ⟨is, ms, ds, []⟩ :=
    collect_macros_texts [(fname, content)] _ (plainTextTokens_text fname _ 0) fuel _
      (le_trans (plainTextTokens_length_le fname _ 0) hfuel)
  have hpass : pass2 [(fname, content)] fuel ⟨is, ms, ds, []⟩
      (plainTextTokens fname (splitOnChar '\n' content) 0) =
      .ok (strippedNonblank (splitOnChar '\n' content), ⟨is, ms, ds, []⟩) :=
    pass2_plain [(fname, content)] fname is ms ds (splitOnChar '\n' content)
      (fun l hml => (hl l hml).2) 0 fuel hfuel
  have hid : (strippedNonblank (splitOnChar '\n' content)).filter (fun s => s ≠ []) =
      strippedNonblank (splitOnChar '\n' content) := by
    apply List.filter_eq_self.mpr
    intro a ha
    exact (List.mem_filter.mp ha).2
  unfold process_file
  rw [hread]
  simp only [htok]
  unfold process_tokens
  simp only [hcollect, hpass, hid]

/-- C8 amended, witness: a three-line file with whitespace, a blank line and a
parenthesis-free tag line, processed from a fresh state. -/
theorem c8_amended_witness :
    process_file [(lit "f", lit "  hi  \n\n<b>x</b>")] 3 initState (lit "f") =
      .ok (joinWith ['\n'] (strippedNonblank (splitOnChar '\n' (lit "  hi  \n\n<b>x</b>"))),
        initState) :=
  c8_amended (lit "  hi  \n\n<b>x</b>") (lit "f") initState 3 rfl (by decide) (by decide)

/-! ### Lemmas towards C6: the substitution passes of `expand_macro` -/

theorem bracePat_length (p : Str) : (bracePat p).length = p.length + 2 := by
  simp [bracePat]

theorem bracePat_ne_nil (p : Str) : bracePat p ≠ [] := by simp [bracePat]

theorem bracePat_prefix_head (p : Str) (c : Char) (cs : Str)
    (h : (bracePat p).isPrefixOf (c :: cs) = true) : c = '{' := by
  obtain ⟨t, ht⟩ := List.isPrefixOf_iff_prefix.mp h
  have hh := congrArg List.head? ht
  simpa [bracePat] using hh.symm

theorem replaceAllF_succ (pat rep : Str) :
    ∀ fuel (s : Str), s.length ≤ fuel →
      replaceAllF pat rep (fuel + 1) s = replaceAllF pat rep fuel s := by
  intro fuel
  induction fuel with
  | zero =>
    intro s hs
    obtain rfl : s = [] := List.length_eq_zero.mp (Nat.le_zero.mp hs)
    rfl
  | succ fuel ih =>
    intro s hs
    match s with
    | [] => rfl
    | c :: cs =>
      by_cases hp : pat ≠ [] ∧ pat.isPrefixOf (c :: cs) = true
      · simp only [replaceAllF, if_pos hp]
        congr 1
        apply ih
        have h1 : 0 < pat.length := List.length_pos.mpr hp.1
        have h2 : (c :: cs).length ≤ fuel + 1 := hs
        simp only [List.length_drop, List.length_cons] at h2 ⊢
        omega
      · simp only [replaceAllF, if_neg hp]
        congr 1
        apply ih
        have h2 : (c :: cs).length ≤ fuel + 1 := hs
        simp only [List.length_cons] at h2
        omega

theorem replaceAllF_ge (pat rep : Str) :
    ∀ (k : Nat) (s : Str), replaceAllF pat rep (s.length + k) s = replaceAllF pat rep s.length s := by
  intro k
  induction k with
  | zero => intro s; rfl
  | succ k ih =>
    intro s
    have h := replaceAllF_succ pat rep (s.length + k) s (by omega)
    rw [show s.length + (k + 1) = s.length + k + 1 by omega, h, ih]

/-- The step equation of `re.sub` with a nonempty literal pattern, free of the
fuel bookkeeping. -/
theorem replaceAll_cons (pat rep : Str) (hp : pat ≠ []) (c : Char) (cs : Str) :
    replaceAll pat rep (c :: cs) =
      if pat.isPrefixOf (c :: cs) = true then
        rep ++ replaceAll pat rep ((c :: cs).drop pat.length)
      else c :: replaceAll pat rep cs := by
  show replaceAllF pat rep (cs.length + 1) (c :: cs) = _
  by_cases hpre : pat.isPrefixOf (c :: cs) = true
  · rw [if_pos hpre]
    simp only [replaceAllF, if_pos (And.intro hp hpre)]
    congr 1
    set D := (c :: cs).drop pat.length with hD
    have hd : D.length ≤ cs.length := by
      have h1 : 0 < pat.length := List.length_pos.mpr hp
      rw [hD]
      simp only [List.length_drop, List.length_cons]
      omega
    rw [show cs.length = D.length + (cs.length - D.length) by omega, replaceAllF_ge]
    rfl
  · rw [if_neg hpre]
    simp only [replaceAllF, if_neg (show ¬ (pat ≠ [] ∧ pat.isPrefixOf (c :: cs) = true) from
      fun hand => hpre hand.2)]
    rfl

theorem simultSubstF_succ (pairs : List (Str × Str)) :
    ∀ fuel (s : Str), s.length ≤ fuel →
      simultSubstF pairs (fuel + 1) s = simultSubstF pairs fuel s := by
  intro fuel
  induction fuel with
  | zero =>
    intro s hs
    obtain rfl : s = [] := List.length_eq_zero.mp (Nat.le_zero.mp hs)
    rfl
  | succ fuel ih =>
    intro s hs
    match s with
    | [] => rfl
    | c :: cs =>
      have h2 : (c :: cs).length ≤ fuel + 1 := hs
      simp only [List.length_cons] at h2
      simp only [simultSubstF]
      cases hf : pairs.find? (fun pr => (bracePat pr.1).isPrefixOf (c :: cs)) with
      | some pr =>
        simp only [hf]
        congr 1
        apply ih
        simp only [List.length_drop, List.length_cons]
        omega
      | none =>
        simp only [hf]
        congr 1
        apply ih
        omega

theorem simultSubstF_ge (pairs : List (Str × Str)) :
    ∀ (k : Nat) (s : Str),
      simultSubstF pairs (s.length + k) s = simultSubstF pairs s.length s := by
  intro k
  induction k with
  | zero => intro s; rfl
  | succ k ih =>
    intro s
    have h := simultSubstF_succ pairs (s.length + k) s (by omega)
    rw [show s.length + (k + 1) = s.length + k + 1 by omega, h, ih]

/-- The step equation of the spec-side simultaneous substitution. -/
theorem simultSubst_cons (pairs : List (Str × Str)) (c : Char) (cs : Str) :
    simultSubst pairs (c :: cs) =
      match pairs.find? (fun pr => (bracePat pr.1).isPrefixOf (c :: cs)) with
      | some pr => pr.2 ++ simultSubst pairs ((c :: cs).drop (pr.1.length + 2))
      | none => c :: simultSubst pairs cs := by
  show simultSubstF pairs (cs.length + 1) (c :: cs) = _
  simp only [simultSubstF]
  cases hf : pairs.find? (fun pr => (bracePat pr.1).isPrefixOf (c :: cs)) with
  | some pr =>
    simp only [hf]
    congr 1
    set D := (c :: cs).drop (pr.1.length + 2) with hD
    have hd : D.length ≤ cs.length := by
      rw [hD]
      simp only [List.length_drop, List.length_cons]
      omega
    rw [show cs.length = D.length + (cs.length - D.length) by omega, simultSubstF_ge]
    rfl
  | none =>
    simp only [hf]
    rfl

/-- A single `re.sub` pass of one placeholder is exactly the simultaneous
substitution with that one pair. -/
theorem replaceAll_eq_simultSubst_single (p a : Str) :
    ∀ (n : Nat) (s : Str), s.length ≤ n →
      replaceAll (bracePat p) a s = simultSubst [(p, a)] s := by
  intro n
  induction n with
  | zero =>
    intro s hs
    obtain rfl : s = [] := List.length_eq_zero.mp (Nat.le_zero.mp hs)
    rfl
  | succ n ih =>
    intro s hs
    match s with
    | [] => rfl
    | c :: cs =>
      have h2 : (c :: cs).length ≤ n + 1 := hs
      simp only [List.length_cons] at h2
      rw [replaceAll_cons _ _ (bracePat_ne_nil p), simultSubst_cons]
      by_cases hpre : (bracePat p).isPrefixOf (c :: cs) = true
      · have hfind : [(p, a)].find? (fun pr => (bracePat pr.1).isPrefixOf (c :: cs)) =
            some (p, a) := by
          simp [List.find?, hpre]
        rw [if_pos hpre]
        simp only [hfind]
        rw [show (c :: cs).drop (bracePat p).length = (c :: cs).drop (p.length + 2) by
          rw [bracePat_length]]
        congr 1
        apply ih
        simp only [List.length_drop, List.length_cons]
        omega
      · have hfind : [(p, a)].find? (fun pr => (bracePat pr.1).isPrefixOf (c :: cs)) = none := by
          simp [List.find?, hpre]
        rw [if_neg hpre]
        simp only [hfind]
        congr 1
        apply ih
        omega

/-- A pass over a body without `{` changes nothing: bare parameter names are
never rewritten. -/
theorem replaceAll_id_of_no_open_brace (p a : Str) :
    ∀ s : Str, '{' ∉ s → replaceAll (bracePat p) a s = s := by
  intro s
  induction s with
  | nil => intro _; rfl
  | cons c cs ih =>
    intro h
    rw [replaceAll_cons _ _ (bracePat_ne_nil p)]
    have hpre : ¬ (bracePat p).isPrefixOf (c :: cs) = true := by
      intro hpp
      have hc := bracePat_prefix_head p c cs hpp
      subst hc
      exact h (List.mem_cons_self _ _)
    rw [if_neg hpre, ih (fun hm => h (List.mem_cons_of_mem _ hm))]

/-- A backslash-free replacement string is its own template: processing it
inserts it verbatim. -/
theorem templSteps_id_of_no_backslash (g0 : Str) :
    ∀ s : Str, '\\' ∉ s → ∀ fuel, s.length ≤ fuel → templSteps g0 fuel s = .ok s := by
  intro s
  induction s with
  | nil => intro _ fuel _; cases fuel <;> rfl
  | cons c cs ih =>
    intro h fuel hf
    cases fuel with
    | zero => exact absurd hf (by simp)
    | succ f =>
      have hc : ¬ c = '\\' := fun hh => h (by simp [hh])
      have hcs : '\\' ∉ cs := fun hm => h (List.mem_cons_of_mem _ hm)
      have hlen : cs.length ≤ f := by
        have := hf
        simp only [List.length_cons] at this
        omega
      simp only [templSteps, if_neg hc]
      rw [ih hcs f hlen]

theorem parseTempl_id_of_no_backslash (g0 a : Str) (h : '\\' ∉ a) :
    parseTempl g0 a = .ok a :=
  templSteps_id_of_no_backslash g0 a h a.length le_rfl

theorem pySubst_of_no_backslash (p a body : Str) (h : '\\' ∉ a) :
    pySubst p a body = .ok (replaceAll (bracePat p) a body) := by
  unfold pySubst
  rw [parseTempl_id_of_no_backslash (bracePat p) a h]

/-- The substitution fold of `expand_macro`, with each step's single `re.sub`
pass written as the simultaneous substitution of its one (template-processed)
pair. -/
theorem foldlM_pySubst_eq_map_form :
    ∀ (l : List (Str × Str)) (b : Str),
      l.foldlM (fun r pr => pySubst pr.1 pr.2 r) b =
      l.foldlM (fun r pr => (parseTempl (bracePat pr.1) pr.2).map
        (fun rep => simultSubst [(pr.1, rep)] r)) b := by
  intro l
  induction l with
  | nil => intro b; rfl
  | cons pr rest ih =>
    obtain ⟨p, a⟩ := pr
    intro b
    simp only [List.foldlM_cons]
    cases hp : parseTempl (bracePat p) a with
    | error e => simp only [pySubst, hp, Except.map]; rfl
    | ok rep =>
      simp only [pySubst, hp, Except.map]
      rw [replaceAll_eq_simultSubst_single p rep b.length b le_rfl]
      exact ih _

/-- With backslash-free arguments the fold succeeds and each pass inserts the
exact argument text. -/
theorem foldlM_pySubst_no_bs :
    ∀ (l : List (Str × Str)) (b : Str), (∀ pr ∈ l, '\\' ∉ pr.2) →
      l.foldlM (fun r pr => pySubst pr.1 pr.2 r) b =
        .ok (l.foldl (fun r pr => simultSubst [pr] r) b) := by
  intro l
  induction l with
  | nil => intro b _; rfl
  | cons pr rest ih =>
    obtain ⟨p, a⟩ := pr
    intro b hbs
    simp only [List.foldlM_cons, List.foldl_cons]
    rw [pySubst_of_no_backslash p a b (hbs (p, a) (List.mem_cons_self _ _)),
      replaceAll_eq_simultSubst_single p a b.length b le_rfl]
    exact ih _ (fun q hq => hbs q (List.mem_cons_of_mem _ hq))

/-- Single-pair passes over a body without `{` change nothing. -/
theorem foldl_simultSingle_id :
    ∀ (l : List (Str × Str)) (b : Str), '{' ∉ b →
      l.foldl (fun r pr => simultSubst [pr] r) b = b := by
  intro l
  induction l with
  | nil => intro b _; rfl
  | cons pr rest ih =>
    obtain ⟨p, a⟩ := pr
    intro b hb
    simp only [List.foldl_cons]
    rw [← replaceAll_eq_simultSubst_single p a b.length b le_rfl,
      replaceAll_id_of_no_open_brace p a b hb]
    exact ih b hb

/-- C6 amended: expansion (at matching arity) is a sequential fold over the
parameter/argument pairs, not the claim's one simultaneous substitution: each
step first compiles the argument as a `re.sub` replacement template -- so a
bad escape or group reference in any argument aborts the whole expansion,
even when its placeholder never occurs -- and then simultaneously replaces
every occurrence of that one placeholder `{p}` (the single-pair case of the
spec-side `simultSubst`) in the running result, so text introduced by an
earlier argument is rewritten by later passes (see the counterexample).  When
no argument contains a backslash, template processing is the identity: each
pass then inserts the exact argument text, and bare parameter names are never
rewritten -- a body containing no `{` is returned unchanged. -/
theorem c6_amended (m : Macro) (args : List Str) (h : args.length = m.params.length) :
    expand_macro m args =
      (m.params.zip args).foldlM
        (fun r pr => (parseTempl (bracePat pr.1) pr.2).map
          (fun rep => simultSubst [(pr.1, rep)] r)) m.body ∧
    ((∀ a ∈ args, '\\' ∉ a) →
      expand_macro m args =
        .ok ((m.params.zip args).foldl (fun r pr => simultSubst [pr] r) m.body) ∧
      ('{' ∉ m.body → expand_macro m args = .ok m.body)) := by
  have harity : ¬ args.length ≠ m.params.length := by simp [h]
  have hexp : expand_macro m args =
      (m.params.zip args).foldlM (fun r pr => pySubst pr.1 pr.2 r) m.body := by
    unfold expand_macro
    rw [if_neg harity]
  refine ⟨?_, fun hbs => ?_⟩
  · rw [hexp]
    exact foldlM_pySubst_eq_map_form _ _
  · have hprs : ∀ pr ∈ m.params.zip args, '\\' ∉ pr.2 :=
      fun pr hpr => hbs pr.2 (List.of_mem_zip hpr).2
    refine ⟨?_, fun hb => ?_⟩
    · rw [hexp]
      exact foldlM_pySubst_no_bs _ _ hprs
    · rw [hexp, foldlM_pySubst_no_bs _ _ hprs, foldl_simultSingle_id _ _ hb]

/-! ### Lemmas towards C5: cycle detection in pass 1 -/

theorem fsHasPath_iff_mem_dom (fs : FS) (p : Str) : fsHasPath fs p ↔ p ∈ fsDom fs := by
  induction fs with
  | nil => simp [fsHasPath, fsRead, fsDom]
  | cons pr rest ih =>
    obtain ⟨q, c⟩ := pr
    by_cases hq : q = p
    · subst hq
      constructor
      · intro _
        simp [fsDom]
      · intro _
        exact ⟨c, by simp [fsRead]⟩
    · have h1 : fsHasPath ((q, c) :: rest) p ↔ fsHasPath rest p := by
        simp [fsHasPath, fsRead, hq]
      have h2 : p ∈ fsDom ((q, c) :: rest) ↔ q = p ∨ p ∈ fsDom rest := by
        simp [fsDom, eq_comm]
      rw [h1, h2, ih]
      simp [hq]

/-- Pass-1 collection restores the include stack on success. -/
theorem collect_macros_stack (fs : FS) :
    ∀ fuel (ts : List Token) (st st2 : Preprocessor),
      collect_macros fs fuel st ts = .ok st2 → st2.include_stack = st.include_stack := by
  intro fuel
  induction fuel with
  | zero =>
    intro ts st st2 h
    cases ts with
    | nil =>
      have : st = st2 := by simpa [collect_macros] using h
      rw [← this]
    | cons t rest => simp [collect_macros] at h
  | succ fuel ih =>
    intro ts st st2 h
    cases ts with
    | nil =>
      have : st = st2 := by simpa [collect_macros] using h
      rw [← this]
    | cons t rest =>
      obtain ⟨tk, ln, fl⟩ := t
      cases tk with
      | define name params body =>
        simp only [collect_macros] at h
        simpa using ih _ _ _ h
      | incl v =>
        simp only [collect_macros] at h
        split at h
        · exact absurd h (by simp)
        · split at h
          · exact absurd h (by simp)
          · split at h
            · exact absurd h (by simp)
            · split at h
              · exact absurd h (by simp)
              · rename_i hnotmem content hread toks htok st9 hinner
                have h9 := ih _ _ _ hinner
                have h10 := ih _ _ _ h
                rw [h10]
                simp only at h9
                simp [h9, List.dropLast_concat]
      | ifdef s =>
        simp only [collect_macros] at h
        simpa using ih _ _ _ h
      | ifndef s =>
        simp only [collect_macros] at h
        simpa using ih _ _ _ h
      | els =>
        simp only [collect_macros] at h
        simpa using ih _ _ _ h
      | endif =>
        simp only [collect_macros] at h
        simpa using ih _ _ _ h
      | undef s =>
        simp only [collect_macros] at h
        simpa using ih _ _ _ h
      | text s =>
        simp only [collect_macros] at h
        simpa using ih _ _ _ h

/-- Fuel monotonicity: a pass-1 result other than fuel exhaustion is stable
under more fuel. -/
theorem collect_macros_mono (fs : FS) :
    ∀ fuel (ts : List Token) (st : Preprocessor) (r : Except PError Preprocessor),
      collect_macros fs fuel st ts = r → r ≠ .error .outOfFuel →
      ∀ fuel2, fuel ≤ fuel2 → collect_macros fs fuel2 st ts = r := by
  intro fuel
  induction fuel with
  | zero =>
    intro ts st r h hne fuel2 hle
    cases ts with
    | nil =>
      have hr : r = .ok st := by rw [← h]; rfl
      subst hr
      cases fuel2 <;> rfl
    | cons t rest =>
      have hr : r = .error .outOfFuel := by rw [← h]; rfl
      exact absurd hr hne
  | succ fuel ih =>
    intro ts st r h hne fuel2 hle
    cases ts with
    | nil =>
      have hr : r = .ok st := by rw [← h]; rfl
      subst hr
      cases fuel2 <;> rfl
    | cons t rest =>
      obtain ⟨g, rfl⟩ : ∃ g, fuel2 = g + 1 := ⟨fuel2 - 1, by omega⟩
      have hg : fuel ≤ g := by omega
      obtain ⟨tk, ln, fl⟩ := t
      cases tk with
      | define name params body =>
        simp only [collect_macros] at h ⊢
        exact ih _ _ _ h hne g hg
      | incl v =>
        simp only [collect_macros] at h ⊢
        split at h
        · rename_i hmem
          rw [if_pos hmem]
          exact h
        · rename_i hmem
          rw [if_neg hmem]
          split at h
          · exact h
          · split at h
            · exact h
            · split at h
              · rename_i e hinner
                have hne2 : (Except.error e : Except PError Preprocessor) ≠ .error .outOfFuel := by
                  rw [h]; exact hne
                rw [ih _ _ _ hinner hne2 g hg]
                exact h
              · rename_i st2 hinner
                rw [ih _ _ _ hinner (by simp) g hg]
                exact ih _ _ _ h hne g hg
      | ifdef s =>
        simp only [collect_macros] at h ⊢
        exact ih _ _ _ h hne g hg
      | ifndef s =>
        simp only [collect_macros] at h ⊢
        exact ih _ _ _ h hne g hg
      | els =>
        simp only [collect_macros] at h ⊢
        exact ih _ _ _ h hne g hg
      | endif =>
        simp only [collect_macros] at h ⊢
        exact ih _ _ _ h hne g hg
      | undef s =>
        simp only [collect_macros] at h ⊢
        exact ih _ _ _ h hne g hg
      | text s =>
        simp only [collect_macros] at h ⊢
        exact ih _ _ _ h hne g hg

/-- Under a well-formed filesystem, pass 1 either succeeds, reports a cycle,
or exhausts the fuel: no other error is reachable. -/
theorem collect_macros_errors (fs : FS) (hwf : wfFS fs) :
    ∀ fuel (ts : List Token) (st : Preprocessor), goodTokens fs ts →
      ∀ e, collect_macros fs fuel st ts = .error e →
        (∃ s q, e = .circularInclude s q) ∨ e = .outOfFuel := by
  intro fuel
  induction fuel with
  | zero =>
    intro ts st hgood e h
    cases ts with
    | nil => simp [collect_macros] at h
    | cons t rest =>
      right
      have h0 : collect_macros fs 0 st (t :: rest) = Except.error .outOfFuel := rfl
      rw [h0] at h
      simpa using h.symm
  | succ fuel ih =>
    intro ts st hgood e h
    cases ts with
    | nil => simp [collect_macros] at h
    | cons t rest =>
      obtain ⟨tk, ln, fl⟩ := t
      have hgrest : goodTokens fs rest := fun q hq => hgood q (List.mem_cons_of_mem _ hq)
      cases tk with
      | define name params body =>
        simp only [collect_macros] at h
        exact ih _ _ hgrest e h
      | incl v =>
        simp only [collect_macros] at h
        split at h
        · rename_i hmem
          left
          have he : PError.circularInclude st.include_stack (resolveIncludePath fl v) = e := by
            simpa using h
          exact ⟨_, _, he.symm⟩
        · rename_i hmem
          split at h
          · rename_i hread
            have hhp : fsHasPath fs (resolveIncludePath fl v) :=
              hgood ⟨.incl v, ln, fl⟩ (List.mem_cons_self _ _) v rfl
            obtain ⟨c, hc⟩ := hhp
            rw [hread] at hc
            simp at hc
          · rename_i content hread
            split at h
            · rename_i e2 htok
              obtain ⟨ts2, hts2, _⟩ := hwf _ _ hread st.macros
              rw [htok] at hts2
              simp at hts2
            · rename_i toks htok
              split at h
              · rename_i e3 hinner
                obtain ⟨ts2, hts2, hgood2⟩ := hwf _ _ hread st.macros
                rw [htok] at hts2
                have hts3 : toks = ts2 := by simpa using hts2
                subst hts3
                have h4 := ih _ _ hgood2 e3 hinner
                have he : e3 = e := by simpa using h
                rw [← he]
                exact h4
              · rename_i st2 hinner
                exact ih _ _ hgrest e h
      | ifdef s =>
        simp only [collect_macros] at h
        exact ih _ _ hgrest e h
      | ifndef s =>
        simp only [collect_macros] at h
        exact ih _ _ hgrest e h
      | els =>
        simp only [collect_macros] at h
        exact ih _ _ hgrest e h
      | endif =>
        simp only [collect_macros] at h
        exact ih _ _ hgrest e h
      | undef s =>
        simp only [collect_macros] at h
        exact ih _ _ hgrest e h
      | text s =>
        simp only [collect_macros] at h
        exact ih _ _ hgrest e h

/-- With an include into the cycle set among the tokens, pass 1 never
succeeds: the cycle is eventually hit (or the fuel runs out first). -/
theorem collect_macros_not_ok (fs : FS) (C : List Str) (hC : cycClosed fs C) :
    ∀ fuel (ts : List Token) (st : Preprocessor), (∃ t ∈ ts, inclInto C t) →
      ∀ st2, collect_macros fs fuel st ts ≠ .ok st2 := by
  intro fuel
  induction fuel with
  | zero =>
    intro ts st hwit st2 h
    obtain ⟨t, ht, _⟩ := hwit
    cases ts with
    | nil => simp at ht
    | cons t0 rest =>
      have h0 : collect_macros fs 0 st (t0 :: rest) = Except.error .outOfFuel := rfl
      rw [h0] at h
      simp at h
  | succ fuel ih =>
    intro ts st hwit st2 h
    cases ts with
    | nil =>
      obtain ⟨t, ht, _⟩ := hwit
      simp at ht
    | cons t0 rest =>
      obtain ⟨t, ht, hinto⟩ := hwit
      obtain ⟨tk, ln, fl⟩ := t0
      rcases List.mem_cons.mp ht with heq | htrest
      · -- the head token itself includes into the cycle
        subst heq
        obtain ⟨v, htk, hres⟩ := hinto
        have htk2 : tk = .incl v := htk
        subst htk2
        simp only [collect_macros] at h
        split at h
        · simp at h
        · rename_i hmem
          split at h
          · simp at h
          · rename_i content hread
            split at h
            · simp at h
            · rename_i toks htok
              split at h
              · simp at h
              · rename_i stX hinnerok
                have hw2 := (hC _ hres).2 content hread st.macros toks htok
                exact ih toks _ hw2 stX hinnerok
      · -- the witness sits in the tail
        cases tk with
        | define name params body =>
          simp only [collect_macros] at h
          exact ih rest _ ⟨t, htrest, hinto⟩ st2 h
        | incl v =>
          simp only [collect_macros] at h
          split at h
          · simp at h
          · rename_i hmem
            split at h
            · simp at h
            · rename_i content hread
              split at h
              · simp at h
              · rename_i toks htok
                split at h
                · simp at h
                · rename_i stX hinnerok
                  exact ih rest _ ⟨t, htrest, hinto⟩ st2 h
        | ifdef s =>
          simp only [collect_macros] at h
          exact ih rest _ ⟨t, htrest, hinto⟩ st2 h
        | ifndef s =>
          simp only [collect_macros] at h
          exact ih rest _ ⟨t, htrest, hinto⟩ st2 h
        | els =>
          simp only [collect_macros] at h
          exact ih rest _ ⟨t, htrest, hinto⟩ st2 h
        | endif =>
          simp only [collect_macros] at h
          exact ih rest _ ⟨t, htrest, hinto⟩ st2 h
        | undef s =>
          simp only [collect_macros] at h
          exact ih rest _ ⟨t, htrest, hinto⟩ st2 h
        | text s =>
          simp only [collect_macros] at h
          exact ih rest _ ⟨t, htrest, hinto⟩ st2 h

/-- Pass 1 converges under a well-formed filesystem: there is a fuel
threshold beyond which the fuel never runs out (the include stack grows only
by fresh readable paths, so its length is bounded by the number of files). -/
theorem collect_macros_converges (fs : FS) (hwf : wfFS fs) :
    ∀ (k : Nat) (ts : List Token) (st : Preprocessor),
      st.include_stack.Nodup → (∀ x ∈ st.include_stack, fsHasPath fs x) →
      ((fsDom fs) \ st.include_stack.toFinset).card ≤ k →
      ∃ N, ∀ fuel, N ≤ fuel → collect_macros fs fuel st ts ≠ .error .outOfFuel := by
  intro k
  induction k using Nat.strong_induction_on with
  | _ k ihk =>
    intro ts
    induction ts with
    | nil =>
      intro st _ _ _
      refine ⟨0, fun fuel _ habs => ?_⟩
      cases fuel <;> simp [collect_macros] at habs
    | cons t rest iht =>
      intro st hnd hsub hcard
      obtain ⟨tk, ln, fl⟩ := t
      cases tk with
      | define name params body =>
        obtain ⟨N, hN⟩ := iht ⟨st.include_stack,
          dictInsert st.macros name ⟨name, params, body, fl, ln⟩,
          setAdd st.defined_symbols name, st.conditional_stack⟩ hnd hsub hcard
        refine ⟨N + 1, fun fuel hf habs => ?_⟩
        obtain ⟨g, rfl⟩ : ∃ g, fuel = g + 1 := ⟨fuel - 1, by omega⟩
        simp only [collect_macros] at habs
        exact hN g (by omega) habs
      | incl v =>
        by_cases hmem : resolveIncludePath fl v ∈ st.include_stack
        · refine ⟨1, fun fuel hf habs => ?_⟩
          obtain ⟨g, rfl⟩ : ∃ g, fuel = g + 1 := ⟨fuel - 1, by omega⟩
          simp only [collect_macros, if_pos hmem] at habs
          simp at habs
        · by_cases hdom : fsHasPath fs (resolveIncludePath fl v)
          · obtain ⟨content, hread⟩ := hdom
            obtain ⟨toks, htok, hgood2⟩ := hwf _ _ hread st.macros
            have hqdom : resolveIncludePath fl v ∈ fsDom fs :=
              (fsHasPath_iff_mem_dom fs _).mp ⟨content, hread⟩
            have hqsd : resolveIncludePath fl v ∈ fsDom fs \ st.include_stack.toFinset := by
              simp only [Finset.mem_sdiff, List.mem_toFinset]
              exact ⟨hqdom, hmem⟩
            have hk1 : 1 ≤ k := by
              have := Finset.card_pos.mpr ⟨_, hqsd⟩
              omega
            have hcard2 :
                ((fsDom fs) \ (st.include_stack ++ [resolveIncludePath fl v]).toFinset).card ≤
                  k - 1 := by
              have hsubs : (fsDom fs) \ (st.include_stack ++ [resolveIncludePath fl v]).toFinset ⊆
                  ((fsDom fs) \ st.include_stack.toFinset).erase (resolveIncludePath fl v) := by
                intro x hx
                simp only [Finset.mem_sdiff, List.mem_toFinset, List.mem_append,
                  List.mem_singleton, not_or, Finset.mem_erase] at hx ⊢
                exact ⟨hx.2.2, hx.1, hx.2.1⟩
              have hle := Finset.card_le_card hsubs
              rw [Finset.card_erase_of_mem hqsd] at hle
              omega
            have hst1 : ∃ N1, ∀ fuel, N1 ≤ fuel →
                collect_macros fs fuel
                  ⟨st.include_stack ++ [resolveIncludePath fl v], st.macros,
                    st.defined_symbols, st.conditional_stack⟩ toks ≠ .error .outOfFuel := by
              apply ihk (k - 1) (by omega)
              · simp only [List.nodup_append]
                exact ⟨hnd, List.nodup_singleton _, by
                  intro x hx hx2
                  simp only [List.mem_singleton] at hx2
                  subst hx2
                  exact hmem hx⟩
              · intro x hx
                rcases List.mem_append.mp hx with h1 | h1
                · exact hsub x h1
                · simp only [List.mem_singleton] at h1
                  subst h1
                  exact ⟨content, hread⟩
              · exact hcard2
            obtain ⟨N1, hN1⟩ := hst1
            cases hval : collect_macros fs N1
                ⟨st.include_stack ++ [resolveIncludePath fl v], st.macros,
                  st.defined_symbols, st.conditional_stack⟩ toks with
            | error e =>
              have hne : e ≠ PError.outOfFuel := by
                intro he
                subst he
                exact hN1 N1 le_rfl hval
              refine ⟨N1 + 1, fun fuel hf habs => ?_⟩
              obtain ⟨g, rfl⟩ : ∃ g, fuel = g + 1 := ⟨fuel - 1, by omega⟩
              have hmono := collect_macros_mono fs N1 _ _ _ hval (by simp [hne]) g (by omega)
              simp only [collect_macros, if_neg hmem, hread, htok, hmono] at habs
              exact hne (by simpa using habs)
            | ok st2 =>
              have hstk := collect_macros_stack fs N1 _ _ _ hval
              simp only at hstk
              obtain ⟨N2, hN2⟩ := iht ⟨st2.include_stack.dropLast, st2.macros,
                st2.defined_symbols, st2.conditional_stack⟩
                (by rw [hstk, List.dropLast_concat]; exact hnd)
                (by rw [hstk, List.dropLast_concat]; exact hsub)
                (by rw [hstk, List.dropLast_concat]; exact hcard)
              refine ⟨max N1 N2 + 1, fun fuel hf habs => ?_⟩
              obtain ⟨g, rfl⟩ : ∃ g, fuel = g + 1 := ⟨fuel - 1, by omega⟩
              have hmono := collect_macros_mono fs N1 _ _ _ hval (by simp) g
                (by omega)
              simp only [collect_macros, if_neg hmem, hread, htok, hmono] at habs
              exact hN2 g (by omega) habs
          · have hread : fsRead fs (resolveIncludePath fl v) = none := by
              cases hr : fsRead fs (resolveIncludePath fl v) with
              | none => rfl
              | some c => exact absurd ⟨c, hr⟩ hdom
            refine ⟨1, fun fuel hf habs => ?_⟩
            obtain ⟨g, rfl⟩ : ∃ g, fuel = g + 1 := ⟨fuel - 1, by omega⟩
            simp only [collect_macros, if_neg hmem, hread] at habs
            simp at habs
      | ifdef s =>
        obtain ⟨N, hN⟩ := iht st hnd hsub hcard
        refine ⟨N + 1, fun fuel hf habs => ?_⟩
        obtain ⟨g, rfl⟩ : ∃ g, fuel = g + 1 := ⟨fuel - 1, by omega⟩
        simp only [collect_macros] at habs
        exact hN g (by omega) habs
      | ifndef s =>
        obtain ⟨N, hN⟩ := iht st hnd hsub hcard
        refine ⟨N + 1, fun fuel hf habs => ?_⟩
        obtain ⟨g, rfl⟩ : ∃ g, fuel = g + 1 := ⟨fuel - 1, by omega⟩
        simp only [collect_macros] at habs
        exact hN g (by omega) habs
      | els =>
        obtain ⟨N, hN⟩ := iht st hnd hsub hcard
        refine ⟨N + 1, fun fuel hf habs => ?_⟩
        obtain ⟨g, rfl⟩ : ∃ g, fuel = g + 1 := ⟨fuel - 1, by omega⟩
        simp only [collect_macros] at habs
        exact hN g (by omega) habs
      | endif =>
        obtain ⟨N, hN⟩ := iht st hnd hsub hcard
        refine ⟨N + 1, fun fuel hf habs => ?_⟩
        obtain ⟨g, rfl⟩ : ∃ g, fuel = g + 1 := ⟨fuel - 1, by omega⟩
        simp only [collect_macros] at habs
        exact hN g (by omega) habs
      | undef s =>
        obtain ⟨N, hN⟩ := iht st hnd hsub hcard
        refine ⟨N + 1, fun fuel hf habs => ?_⟩
        obtain ⟨g, rfl⟩ : ∃ g, fuel = g + 1 := ⟨fuel - 1, by omega⟩
        simp only [collect_macros] at habs
        exact hN g (by omega) habs
      | text s =>
        obtain ⟨N, hN⟩ := iht st hnd hsub hcard
        refine ⟨N + 1, fun fuel hf habs => ?_⟩
        obtain ⟨g, rfl⟩ : ∃ g, fuel = g + 1 := ⟨fuel - 1, by omega⟩
        simp only [collect_macros] at habs
        exact hN g (by omega) habs

/-- C5: on a filesystem whose include graph is well defined (`wfFS`: every
file tokenizes under every macro table and every include resolves to a
readable file), take any cycle of the include graph -- a set `C` of files each
of which includes another file of `C` -- and process any file of the cycle as
the entry point, starting from an empty include stack.  Then processing never
succeeds at any fuel, and beyond some fuel threshold it fails precisely with a
`CircularInclude` error; the rendered message of such an error lists the
include stack followed by the offending path, one per line. -/
theorem c5_cycle_detected (fs : FS) (C : List Str) (hwf : wfFS fs) (hC : cycClosed fs C)
    (p0 : Str) (hp0 : p0 ∈ C) (st : Preprocessor) (hstack : st.include_stack = []) :
    (∀ fuel out st2, process_file fs fuel st p0 ≠ .ok (out, st2)) ∧
    (∃ N, ∀ fuel, N ≤ fuel →
      ∃ s q, process_file fs fuel st p0 = .error (.circularInclude s q)) ∧
    (∀ s q, renderError (.circularInclude s q) =
      lit "Circular inclusion detected:\n" ++
        joinWith ['\n'] ((s ++ [q]).map (fun f => ' ' :: ' ' :: f))) := by
  obtain ⟨hhp0, hcyc0⟩ := hC p0 hp0
  obtain ⟨c0, hc0⟩ := hhp0
  obtain ⟨ts0, hts0, hgood0⟩ := hwf p0 c0 hc0 st.macros
  have hwit0 : ∃ t ∈ ts0, inclInto C t := hcyc0 c0 hc0 st.macros ts0 hts0
  have hnotok : ∀ fuel st2x, collect_macros fs fuel st ts0 ≠ .ok st2x :=
    fun fuel st2x => collect_macros_not_ok fs C hC fuel ts0 st hwit0 st2x
  refine ⟨?_, ?_, fun s q => rfl⟩
  · intro fuel out st2 h
    unfold process_file at h
    simp only [hc0, hts0] at h
    unfold process_tokens at h
    cases hcol : collect_macros fs fuel st ts0 with
    | error e => simp only [hcol] at h; simp at h
    | ok st2x => exact hnotok fuel st2x hcol
  · obtain ⟨N, hN⟩ := collect_macros_converges fs hwf (fsDom fs).card ts0 st
      (by rw [hstack]; exact List.nodup_nil)
      (by rw [hstack]; simp)
      (by rw [hstack]; simp)
    refine ⟨N, fun fuel hf => ?_⟩
    cases hcol : collect_macros fs fuel st ts0 with
    | ok st2x => exact absurd hcol (hnotok fuel st2x)
    | error e =>
      rcases collect_macros_errors fs hwf fuel ts0 st hgood0 e hcol with ⟨s, q, rfl⟩ | rfl
      · refine ⟨s, q, ?_⟩
        unfold process_file
        simp only [hc0, hts0]
        unfold process_tokens
        simp only [hcol]
      · exact absurd hcol (hN fuel hf)

/-- C5, witness: the spec's scenario 5 -- `a.html` includes `b.html` and
`b.html` includes `a.html`; processing `a.html` from a fresh state. -/
theorem c5_cycle_detected_witness :
    (∀ fuel out st2, process_file
        [(lit "a.html", lit "#include \"b.html\""), (lit "b.html", lit "#include \"a.html\"")]
        fuel initState (lit "a.html") ≠ .ok (out, st2)) ∧
    (∃ N, ∀ fuel, N ≤ fuel → ∃ s q, process_file
        [(lit "a.html", lit "#include \"b.html\""), (lit "b.html", lit "#include \"a.html\"")]
        fuel initState (lit "a.html") = .error (.circularInclude s q)) ∧
    (∀ s q, renderError (.circularInclude s q) =
      lit "Circular inclusion detected:\n" ++
        joinWith ['\n'] ((s ++ [q]).map (fun f => ' ' :: ' ' :: f))) := by
  have hwfW : wfFS
      [(lit "a.html", lit "#include \"b.html\""), (lit "b.html", lit "#include \"a.html\"")] := by
    intro p c hread table
    by_cases h1 : lit "a.html" = p
    · subst h1
      rw [show fsRead
          [(lit "a.html", lit "#include \"b.html\""), (lit "b.html", lit "#include \"a.html\"")]
          (lit "a.html") = some (lit "#include \"b.html\"") from rfl] at hread
      obtain rfl : lit "#include \"b.html\"" = c := by simpa using hread
      refine ⟨[⟨.incl (lit "b.html"), 1, lit "a.html"⟩], rfl, ?_⟩
      intro t ht v htv
      obtain rfl : t = ⟨.incl (lit "b.html"), 1, lit "a.html"⟩ := by simpa using ht
      obtain rfl : lit "b.html" = v := by simpa using htv
      exact ⟨lit "#include \"a.html\"", by decide⟩
    · by_cases h2 : lit "b.html" = p
      · subst h2
        rw [show fsRead
            [(lit "a.html", lit "#include \"b.html\""), (lit "b.html", lit "#include \"a.html\"")]
            (lit "b.html") = some (lit "#include \"a.html\"") from by decide] at hread
        obtain rfl : lit "#include \"a.html\"" = c := by simpa using hread
        refine ⟨[⟨.incl (lit "a.html"), 1, lit "b.html"⟩], rfl, ?_⟩
        intro t ht v htv
        obtain rfl : t = ⟨.incl (lit "a.html"), 1, lit "b.html"⟩ := by simpa using ht
        obtain rfl : lit "a.html" = v := by simpa using htv
        exact ⟨lit "#include \"b.html\"", by decide⟩
      · rw [show fsRead
            [(lit "a.html", lit "#include \"b.html\""), (lit "b.html", lit "#include \"a.html\"")]
            p = none from by simp [fsRead, h1, h2]] at hread
        simp at hread
  have hcycW : cycClosed
      [(lit "a.html", lit "#include \"b.html\""), (lit "b.html", lit "#include \"a.html\"")]
      [lit "a.html", lit "b.html"] := by
    intro p hp
    rcases List.mem_cons.mp hp with rfl | hp2
    · refine ⟨⟨lit "#include \"b.html\"", rfl⟩, ?_⟩
      intro c hreadc table ts htok
      obtain rfl : lit "#include \"b.html\"" = c := by
        rw [show fsRead
            [(lit "a.html", lit "#include \"b.html\""), (lit "b.html", lit "#include \"a.html\"")]
            (lit "a.html") = some (lit "#include \"b.html\"") from rfl] at hreadc
        simpa using hreadc
      rw [show tokenize table (lit "#include \"b.html\"") (lit "a.html") =
          .ok [⟨.incl (lit "b.html"), 1, lit "a.html"⟩] from rfl] at htok
      obtain rfl : [(⟨.incl (lit "b.html"), 1, lit "a.html"⟩ : Token)] = ts := by
        simpa using htok
      exact ⟨⟨.incl (lit "b.html"), 1, lit "a.html"⟩, List.mem_singleton.mpr rfl,
        lit "b.html", rfl, by decide⟩
    · obtain rfl : p = lit "b.html" := by simpa using hp2
      refine ⟨⟨lit "#include \"a.html\"", by decide⟩, ?_⟩
      intro c hreadc table ts htok
      obtain rfl : lit "#include \"a.html\"" = c := by
        rw [show fsRead
            [(lit "a.html", lit "#include \"b.html\""), (lit "b.html", lit "#include \"a.html\"")]
            (lit "b.html") = some (lit "#include \"a.html\"") from by decide] at hreadc
        simpa using hreadc
      rw [show tokenize table (lit "#include \"a.html\"") (lit "b.html") =
          .ok [⟨.incl (lit "a.html"), 1, lit "b.html"⟩] from rfl] at htok
      obtain rfl : [(⟨.incl (lit "a.html"), 1, lit "b.html"⟩ : Token)] = ts := by
        simpa using htok
      exact ⟨⟨.incl (lit "a.html"), 1, lit "b.html"⟩, List.mem_singleton.mpr rfl,
        lit "a.html", rfl, by decide⟩
  exact c5_cycle_detected
    [(lit "a.html", lit "#include \"b.html\""), (lit "b.html", lit "#include \"a.html\"")]
    [lit "a.html", lit "b.html"] hwfW hcycW (lit "a.html") (by decide) initState rfl

/-- C6 amended, witness: the spec's placeholder-locality example
`#define M(x)( x and {x} )` applied to `HI`. -/
theorem c6_amended_witness :
    ( expand_macro ⟨lit "M", [lit "x"], lit " x and {x} ", lit "f", 1⟩ [lit "HI"] =
      (([lit "x"] : List Str).zip [lit "HI"]).foldlM
        (fun r pr => (parseTempl (bracePat pr.1) pr.2).map
          (fun rep => simultSubst [(pr.1, rep)] r)) (lit " x and {x} ")) ∧
    ((∀ a ∈ ([lit "HI"] : List Str), '\\' ∉ a) →
      expand_macro ⟨lit "M", [lit "x"], lit " x and {x} ", lit "f", 1⟩ [lit "HI"] =
        .ok ((([lit "x"] : List Str).zip [lit "HI"]).foldl
          (fun r pr => simultSubst [pr] r) (lit " x and {x} ")) ∧
      ('{' ∉ lit " x and {x} " →
        expand_macro ⟨lit "M", [lit "x"], lit " x and {x} ", lit "f", 1⟩ [lit "HI"] =
          .ok (lit " x and {x} "))) ∧
    (∀ a ∈ ([lit "HI"] : List Str), '\\' ∉ a) ∧
    expand_macro ⟨lit "M", [lit "x"], lit " x and {x} ", lit "f", 1⟩ [lit "HI"] =
      .ok (lit " x and HI ") :=
  ⟨(c6_amended ⟨lit "M", [lit "x"], lit " x and {x} ", lit "f", 1⟩ [lit "HI"] (by decide)).1,
   (c6_amended ⟨lit "M", [lit "x"], lit " x and {x} ", lit "f", 1⟩ [lit "HI"] (by decide)).2,
   by decide, rfl⟩

end SSG
